import Mathlib

/-!
Verification of the tree-construction core of the logitloom repository
(`src/logit-loom.ts`), as a shallow embedding in Lean 4.

Conventions of the embedding:

* JavaScript numbers (`logprob`, `prob`, `coverProb`) are modelled as `ℚ`.
  `Math.exp` is an external real-valued primitive; it is modelled as an
  explicit function parameter `e : ℚ → ℚ` threaded through every definition
  that the source applies `Math.exp` in.
* `uuid.v4()` produces a fresh identifier on each call; this is modelled by
  threading a `Nat` counter through the mutating operations, each freshly
  created node consuming one counter value.
* The asynchronous backend is modelled as an oracle `oracle : Nat → QueriedLogprobs`
  giving the (already adapted) result of the k-th query issued by a build or
  expand loop.  The tree-construction claims quantify over such result
  sequences.
* Mutation of the `Token` tree is modelled by pure state passing: a loop state
  carries the current forest, the uuid counter and the query index.
-/

namespace LogitLoom

/-- Branch finish reasons: the `BranchFinishReason` union type of the source
(`"stop" | "content_filter" | "tool_calls" | "function_call"`). -/
inductive BranchFinishReason where
  | stop
  | content_filter
  | tool_calls
  | function_call
deriving DecidableEq, Repr

/-- Finish reasons as they appear on a response choice: a branch finish reason
or the `"length"` truncation artifact. -/
inductive FinishReason where
  | length
  | branch (r : BranchFinishReason)
deriving DecidableEq, Repr

/-- Token tree node (`interface Token` of the source): id, text, logprob,
prob, branchFinished, children. -/
inductive Token where
  | mk (id : Nat) (text : String) (logprob : ℚ) (prob : ℚ)
       (branchFinished : Option BranchFinishReason) (children : List Token)
deriving Repr

/-- Field accessor for `Token.id`. -/
def Token.id : Token → Nat
  | .mk i _ _ _ _ _ => i

/-- Field accessor for `Token.text`. -/
def Token.text : Token → String
  | .mk _ x _ _ _ _ => x

/-- Field accessor for `Token.logprob`. -/
def Token.logprob : Token → ℚ
  | .mk _ _ lp _ _ _ => lp

/-- Field accessor for `Token.prob`. -/
def Token.prob : Token → ℚ
  | .mk _ _ _ pr _ _ => pr

/-- Field accessor for `Token.branchFinished`. -/
def Token.branchFinished : Token → Option BranchFinishReason
  | .mk _ _ _ _ bf _ => bf

/-- Field accessor for `Token.children`. -/
def Token.children : Token → List Token
  | .mk _ _ _ _ _ cs => cs

/-- Replace the `children` field of a node (models assignment to
`node.children`). -/
def Token.withChildren : Token → List Token → Token
  | .mk i x lp pr bf _, cs => .mk i x lp pr bf cs

/-- Replace the `branchFinished` field of a node (models assignment to
`node.branchFinished`). -/
def Token.withFinished : Token → Option BranchFinishReason → Token
  | .mk i x lp pr _ cs, bf => .mk i x lp pr bf cs

/-- One alternative returned for a position: an entry of a `top_logprobs`
list (`{token, logprob}` in `TokenLogprobs["topLogprobs"]`). -/
structure TopLogprob where
  token : String
  logprob : ℚ
deriving DecidableEq, Repr

/-- One position of a normalized logprobs result: `chosenToken`,
`finishReason` and the (already selected) alternative list, as in the
elements of `QueriedLogprobs.logprobs` of the source. -/
structure LogprobPos where
  chosenToken : String
  finishReason : Option BranchFinishReason
  topLogprobs : List TopLogprob
deriving DecidableEq, Repr

/-- The adapted result of one `query` call (`type QueriedLogprobs`): either a
per-position logprobs list, or a branch-finished signal. -/
inductive QueriedLogprobs where
  | logprobs (positions : List LogprobPos)
  | finish (finishReason : BranchFinishReason)
deriving DecidableEq, Repr

/-! ## Probability-Mass Selector (`sliceToProb`, src/logit-loom.ts lines 451-460)

Source:
```
let cumprob = 0;
let i = 0;
while (cumprob < prob && i < tokens.length) {
  cumprob += Math.exp(tokens[i]!.logprob);
  i++;
}
return tokens.slice(0, i);
```
The while loop is translated by structural recursion on the remaining suffix,
carrying the running `cumprob`; `e` stands for `Math.exp`. -/

/-- Loop kernel of `sliceToProb`: number of further entries consumed starting
from accumulator `cumprob` on the remaining suffix. -/
def sliceCount (e : ℚ → ℚ) (prob : ℚ) : List TopLogprob → ℚ → Nat
  | [], _ => 0
  | t :: ts, cumprob =>
    if cumprob < prob then sliceCount e prob ts (cumprob + e t.logprob) + 1
    else 0

/-- The probability-mass selector `sliceToProb` of the source: shortest
prefix whose cumulative `Math.exp(logprob)` mass reaches `prob`. -/
def sliceToProb (e : ℚ → ℚ) (tokens : List TopLogprob) (prob : ℚ) : List TopLogprob :=
  tokens.take (sliceCount e prob tokens 0)

/-- Cumulative `e`-mass of the first `n` entries of a candidate list. -/
def massOf (e : ℚ → ℚ) (tokens : List TopLogprob) (n : Nat) : ℚ :=
  ((tokens.take n).map (fun t => e t.logprob)).sum

theorem massOf_zero (e : ℚ → ℚ) (tokens : List TopLogprob) : massOf e tokens 0 = 0 := rfl

theorem massOf_nil (e : ℚ → ℚ) (n : Nat) : massOf e [] n = 0 := by
  simp [massOf]

theorem massOf_cons_succ (e : ℚ → ℚ) (t : TopLogprob) (ts : List TopLogprob) (n : Nat) :
    massOf e (t :: ts) (n + 1) = e t.logprob + massOf e ts n := by
  simp [massOf, List.take_succ_cons]

theorem sliceCount_le_length (e : ℚ → ℚ) (p : ℚ) :
    ∀ (ts : List TopLogprob) (acc : ℚ), sliceCount e p ts acc ≤ ts.length := by
  intro ts
  induction ts with
  | nil => intro acc; simp [sliceCount]
  | cons t ts ih =>
    intro acc
    simp only [sliceCount, List.length_cons]
    split
    · exact Nat.succ_le_succ (ih _)
    · exact Nat.zero_le _

theorem sliceCount_reaches (e : ℚ → ℚ) (p : ℚ) :
    ∀ (ts : List TopLogprob) (acc : ℚ),
      p ≤ acc + massOf e ts (sliceCount e p ts acc) ∨ sliceCount e p ts acc = ts.length := by
  intro ts
  induction ts with
  | nil =>
    intro acc; right; simp [sliceCount]
  | cons t ts ih =>
    intro acc
    simp only [sliceCount]
    split
    · rcases ih (acc + e t.logprob) with h | h
      · left
        rw [massOf_cons_succ]
        linarith
      · right
        simp [h]
    · left
      rw [massOf_zero]
      linarith [not_lt.mp (by assumption : ¬ acc < p)]

theorem sliceCount_min (e : ℚ → ℚ) (p : ℚ) :
    ∀ (ts : List TopLogprob) (acc : ℚ) (j : Nat),
      j < sliceCount e p ts acc → acc + massOf e ts j < p := by
  intro ts
  induction ts with
  | nil => intro acc j h; simp [sliceCount] at h
  | cons t ts ih =>
    intro acc j h
    simp only [sliceCount] at h
    split at h
    · cases j with
      | zero => rw [massOf_zero]; linarith [(by assumption : acc < p)]
      | succ j =>
        rw [massOf_cons_succ]
        have := ih (acc + e t.logprob) j (Nat.lt_of_succ_lt_succ h)
        linarith
    · exact absurd h (Nat.not_lt_zero j)

theorem sliceCount_mono (e : ℚ → ℚ) (p₁ p₂ : ℚ) (hp : p₁ ≤ p₂) :
    ∀ (ts : List TopLogprob) (acc : ℚ), sliceCount e p₁ ts acc ≤ sliceCount e p₂ ts acc := by
  intro ts
  induction ts with
  | nil => intro acc; simp [sliceCount]
  | cons t ts ih =>
    intro acc
    simp only [sliceCount]
    by_cases h1 : acc < p₁
    · have h2 : acc < p₂ := lt_of_lt_of_le h1 hp
      simp only [if_pos h1, if_pos h2]
      exact Nat.succ_le_succ (ih _)
    · simp only [if_neg h1]
      exact Nat.zero_le _

/-! ## Response interpretation inside `query` (src/logit-loom.ts lines 347-375)

The HTTP request construction and the raw-shape extraction
(`extractLogprobs`) are external to the claims about error handling; a
response is modelled at the granularity the code inspects it: a list of
choices, each carrying a finish reason and the (already extracted, sorted)
per-position logprobs, i.e. the value of
`choice.logprobs != null ? extractLogprobs(choice.logprobs) : null`. -/

/-- One position as produced by `extractLogprobs` (`interface TokenLogprobs`
of the source): the chosen token and its sorted alternatives. -/
structure TokenLogprobs where
  chosenToken : String
  topLogprobs : List TopLogprob
deriving DecidableEq, Repr

/-- A response choice as `query` inspects it: `finish_reason` and the
extracted logprobs (`none` models both an absent `logprobs` field and a
failed extraction). -/
structure Choice where
  finish_reason : Option FinishReason
  logprobs : Option (List TokenLogprobs)
deriving DecidableEq, Repr

/-- Errors thrown by `query`: `"response missing choices!"` and
`"response missing logprobs!"`. -/
inductive QueryError where
  | missingChoice
  | missingLogprobs
deriving DecidableEq, Repr

/-- Per-position finish reason computed on line 370 of the source:
`choice.finish_reason == null || choice.finish_reason === "length" ? null :
choice.finish_reason`.  Note that the same value is used for every position
of the result. -/
def branchReasonOf : Option FinishReason → Option BranchFinishReason
  | some (.branch r) => some r
  | some .length => none
  | none => none

/-- The response-interpretation part of `query` (src/logit-loom.ts lines
347-375): first-choice lookup, the no-logprobs finish/error cases, and the
per-position adaptation `sliceToProb(topLogprobs, coverProb).slice(0, maxWidth)`. -/
def query (e : ℚ → ℚ) (coverProb : ℚ) (maxWidth : Nat) (choices : List Choice) :
    Except QueryError QueriedLogprobs :=
  match choices.head? with
  | none => .error .missingChoice
  | some choice =>
    match choice.logprobs with
    | none =>
      match choice.finish_reason with
      | some (.branch r) => .ok (.finish r)
      | some .length => .ok (.finish .stop)
      | none => .error .missingLogprobs
    | some lps =>
      .ok (.logprobs (lps.map fun lp =>
        { chosenToken := lp.chosenToken
          finishReason := branchReasonOf choice.finish_reason
          topLogprobs := (sliceToProb e lp.topLogprobs coverProb).take maxWidth }))

/-! ## Claim C3: probability-mass selector characterization -/

/-- C3 (amended): `sliceToProb` returns the shortest prefix whose cumulative
`exp(logprob)` mass reaches `coverProb`, or the whole list if no prefix
reaches it; `coverProb = 0` yields the empty list; the whole list is returned
whenever every proper prefix stays below the threshold (for `coverProb ≥ 1`
this can fail when a proper prefix already has mass `≥ 1`, e.g. a candidate
of logprob `0`); the selected length is monotone in `coverProb`. -/
theorem c3_selector_spec (e : ℚ → ℚ) (tokens : List TopLogprob) (prob : ℚ) :
    (∃ k, k ≤ tokens.length ∧ sliceToProb e tokens prob = tokens.take k ∧
        (prob ≤ massOf e tokens k ∨ k = tokens.length) ∧
        ∀ j, j < k → massOf e tokens j < prob) ∧
    sliceToProb e tokens 0 = [] ∧
    ((∀ j, j < tokens.length → massOf e tokens j < prob) → sliceToProb e tokens prob = tokens) ∧
    ∀ prob2, prob ≤ prob2 →
      (sliceToProb e tokens prob).length ≤ (sliceToProb e tokens prob2).length := by
  refine ⟨⟨sliceCount e prob tokens 0, sliceCount_le_length e prob tokens 0, rfl, ?_, ?_⟩,
    ?_, ?_, ?_⟩
  · have h := sliceCount_reaches e prob tokens 0
    rwa [zero_add] at h
  · intro j hj
    have h := sliceCount_min e prob tokens 0 j hj
    rwa [zero_add] at h
  · cases tokens <;> simp [sliceToProb, sliceCount]
  · intro h
    rcases Nat.lt_or_ge (sliceCount e prob tokens 0) tokens.length with hlt | hge
    · rcases sliceCount_reaches e prob tokens 0 with hr | hr
      · rw [zero_add] at hr
        exact absurd hr (not_le.mpr (h _ hlt))
      · exact absurd hr (Nat.ne_of_lt hlt)
    · have : sliceCount e prob tokens 0 = tokens.length :=
        Nat.le_antisymm (sliceCount_le_length e prob tokens 0) hge
      simp [sliceToProb, this]
  · intro prob2 hp
    have h := sliceCount_mono e prob prob2 hp tokens 0
    simp only [sliceToProb, List.length_take]
    omega

/-- Concrete stand-in for `Math.exp` in the C3 counterexample; it agrees with
the real exponential at the only point the computation evaluates it
(`exp 0 = 1`). -/
def expOne : ℚ → ℚ := fun q => if q = 0 then 1 else 1/2

/-- C3 counterexample: with a first candidate of logprob `0` (probability
exactly `1`), `coverProb = 1 ≥ 1` does not yield the full list: the loop
already stops after the first entry. -/
theorem c3_counterexample :
    (1 : ℚ) ≤ 1 ∧
    sliceToProb expOne [⟨"a", 0⟩, ⟨"b", -1⟩] 1 = [⟨"a", 0⟩] ∧
    sliceToProb expOne [⟨"a", 0⟩, ⟨"b", -1⟩] 1 ≠ [⟨"a", 0⟩, ⟨"b", -1⟩] := by
  have h : sliceToProb expOne [⟨"a", 0⟩, ⟨"b", -1⟩] 1 = [⟨"a", 0⟩] := by
    norm_num [sliceToProb, sliceCount, expOne]
  exact ⟨le_refl 1, h, by rw [h]; simp⟩

/-- Witness for C3: the monotonicity part applied at a concrete input. -/
theorem c3_selector_spec_witness :
    (sliceToProb expOne [⟨"a", -1⟩] (1/2)).length ≤ (sliceToProb expOne [⟨"a", -1⟩] 1).length :=
  (c3_selector_spec expOne [⟨"a", -1⟩] (1/2)).2.2.2 1 (by norm_num)

/-! ## Claim C4: handling of responses without logprobs -/

/-- C4: when the first choice carries no extractable logprobs, a non-`length`
finish reason becomes a branch-finished result carrying that reason,
`length` becomes a branch-finished `stop`, and a null finish reason is the
`missing logprobs` error; a response without a first choice is the distinct
`missing choices` error. -/
theorem c4_missing_logprobs (e : ℚ → ℚ) (cov : ℚ) (w : Nat) :
    (∀ choices : List Choice, choices.head? = none →
        query e cov w choices = .error .missingChoice) ∧
    (∀ (choices : List Choice) (c : Choice) (r : BranchFinishReason),
        choices.head? = some c → c.logprobs = none →
        c.finish_reason = some (.branch r) →
        query e cov w choices = .ok (.finish r)) ∧
    (∀ (choices : List Choice) (c : Choice),
        choices.head? = some c → c.logprobs = none →
        c.finish_reason = some .length →
        query e cov w choices = .ok (.finish .stop)) ∧
    (∀ (choices : List Choice) (c : Choice),
        choices.head? = some c → c.logprobs = none →
        c.finish_reason = none →
        query e cov w choices = .error .missingLogprobs) ∧
    QueryError.missingChoice ≠ QueryError.missingLogprobs := by
  refine ⟨?_, ?_, ?_, ?_, by decide⟩
  · intro choices h
    simp [query, h]
  · intro choices c r hc hl hf
    simp [query, hc, hl, hf]
  · intro choices c hc hl hf
    simp [query, hc, hl, hf]
  · intro choices c hc hl hf
    simp [query, hc, hl, hf]

/-- Witness for C4: the four cases applied to concrete one-choice responses. -/
theorem c4_missing_logprobs_witness :
    query expOne 1 2 [] = .error .missingChoice ∧
    query expOne 1 2 [⟨some (.branch .content_filter), none⟩] = .ok (.finish .content_filter) ∧
    query expOne 1 2 [⟨some .length, none⟩] = .ok (.finish .stop) ∧
    query expOne 1 2 [⟨none, none⟩] = .error .missingLogprobs :=
  ⟨(c4_missing_logprobs expOne 1 2).1 [] rfl,
   (c4_missing_logprobs expOne 1 2).2.1 _ _ _ rfl rfl rfl,
   (c4_missing_logprobs expOne 1 2).2.2.1 _ _ rfl rfl rfl,
   (c4_missing_logprobs expOne 1 2).2.2.2.1 _ _ rfl rfl rfl⟩

/-! ## Tree Mutator (`appendTokens`, src/logit-loom.ts lines 414-449)

`appendTokens(parent, queried)` mutates either a root list or a node.  The
walk over positions keeps a live attachment list `to`; per position it pushes
one node per alternative (lines 433-442), then descends into the children of
the first element of `to` whose text equals the chosen token (lines 443-447),
returning early if there is none.  `uuid.v4()` is modelled by the threaded
counter. -/

/-- Nodes pushed for one position's alternatives (lines 433-442): one fresh
node per alternative, `branchFinished` set by comparing the alternative's
text with the chosen token. -/
def pushNodes (e : ℚ → ℚ) (chosen : String) (fr : Option BranchFinishReason) :
    List TopLogprob → Nat → List Token
  | [], _ => []
  | a :: as, ctr =>
    Token.mk ctr a.token a.logprob (e a.logprob)
      (if a.token = chosen then fr else none) [] :: pushNodes e chosen fr as (ctr + 1)

/-- The position walk of `appendTokens` (lines 431-448) on an attachment list. -/
def attachPositions (e : ℚ → ℚ) : List LogprobPos → List Token → Nat → List Token × Nat
  | [], dst, ctr => (dst, ctr)
  | p :: rest, dst, ctr =>
    let to2 := dst ++ pushNodes e p.chosenToken p.finishReason p.topLogprobs ctr
    let ctr2 := ctr + p.topLogprobs.length
    match to2.findIdx? (fun t => t.text == p.chosenToken) with
    | none => (to2, ctr2)
    | some i =>
      match to2.get? i with
      | none => (to2, ctr2)
      | some next =>
        let res := attachPositions e rest next.children ctr2
        (to2.set i (next.withChildren res.1), res.2)

/-- Display text of the synthetic marker node (line 421). -/
def finishTokenText : BranchFinishReason → String
  | .stop => "<|stop|>"
  | .content_filter => "<|content_filter|>"
  | .tool_calls => "<|tool_calls|>"
  | .function_call => "<|function_call|>"

/-- Variant of `appendTokens` with a root-list attachment target (the `Array.isArray`
branches of lines 416-427 and 431). -/
def appendTokensList (e : ℚ → ℚ) (q : QueriedLogprobs) (roots : List Token) (ctr : Nat) :
    List Token × Nat :=
  match q with
  | .finish r => (roots ++ [Token.mk ctr (finishTokenText r) 0 1 (some r) []], ctr + 1)
  | .logprobs ps => attachPositions e ps roots ctr

/-- Variant of `appendTokens` with a node attachment target. -/
def appendTokensNode (e : ℚ → ℚ) (q : QueriedLogprobs) (t : Token) (ctr : Nat) : Token × Nat :=
  match q with
  | .finish r => (t.withFinished (some r), ctr)
  | .logprobs ps =>
    let res := attachPositions e ps t.children ctr
    (t.withChildren res.1, res.2)

theorem pushNodes_length (e : ℚ → ℚ) (chosen : String) (fr : Option BranchFinishReason) :
    ∀ (as : List TopLogprob) (ctr : Nat), (pushNodes e chosen fr as ctr).length = as.length := by
  intro as
  induction as with
  | nil => intro ctr; rfl
  | cons a as ih => intro ctr; simp [pushNodes, ih]

theorem pushNodes_mem (e : ℚ → ℚ) (chosen : String) (fr : Option BranchFinishReason) :
    ∀ (as : List TopLogprob) (ctr : Nat) (n : Token), n ∈ pushNodes e chosen fr as ctr →
      n.children = [] ∧ n.branchFinished = if n.text = chosen then fr else none := by
  intro as
  induction as with
  | nil => intro ctr n h; simp [pushNodes] at h
  | cons a as ih =>
    intro ctr n h
    simp only [pushNodes, List.mem_cons] at h
    rcases h with h | h
    · subst h
      constructor
      · rfl
      · simp only [Token.text, Token.branchFinished]
    · exact ih _ _ h

theorem findIdx?_zero_spec {α : Type _} (p : α → Bool) :
    ∀ (l : List α) (i : Nat), l.findIdx? p = some i →
      ∃ x, l.get? i = some x ∧ p x = true ∧
        ∀ j, j < i → ∀ y, l.get? j = some y → p y = false := by
  intro l
  induction l with
  | nil => intro i h; simp [List.findIdx?] at h
  | cons a l ih =>
    intro i h
    rw [List.findIdx?_cons] at h
    by_cases hp : p a
    · simp only [hp, if_pos] at h
      cases h
      exact ⟨a, rfl, hp, fun j hj => absurd hj (Nat.not_lt_zero j)⟩
    · simp only [hp, Bool.false_eq_true, if_neg, List.findIdx?_succ] at h
      rcases Option.map_eq_some'.mp h with ⟨i', hi', rfl⟩
      rcases ih i' hi' with ⟨x, hget, hpx, hmin⟩
      refine ⟨x, by simpa using hget, hpx, ?_⟩
      intro j hj y hy
      cases j with
      | zero =>
        simp only [List.get?_cons_zero, Option.some.injEq] at hy
        subst hy
        exact Bool.of_not_eq_true hp
      | succ j =>
        exact hmin j (Nat.lt_of_succ_lt_succ hj) y (by simpa using hy)

/-! ## Claim C10: descent by token text -/

/-- C10: processing one position pushes one node per alternative, each marked
through comparison of its own text with the chosen token (so duplicates of
the chosen text all receive the finish-reason mark), and then descends into
the first element of the attachment list whose text equals the chosen token,
leaving every other element (in particular later duplicates) exactly as it
was pushed; if no element matches, the walk stops. -/
theorem c10_descend_by_text (e : ℚ → ℚ) (p : LogprobPos) (rest : List LogprobPos)
    (dst : List Token) (ctr : Nat) :
    (∀ n ∈ pushNodes e p.chosenToken p.finishReason p.topLogprobs ctr,
        n.branchFinished = if n.text = p.chosenToken then p.finishReason else none) ∧
    (∀ to2, to2 = dst ++ pushNodes e p.chosenToken p.finishReason p.topLogprobs ctr →
      match to2.findIdx? (fun t => t.text == p.chosenToken) with
      | none =>
          attachPositions e (p :: rest) dst ctr = (to2, ctr + p.topLogprobs.length)
      | some i =>
          ∃ next, to2.get? i = some next ∧ next.text = p.chosenToken ∧
            (∀ j, j < i → ∀ y, to2.get? j = some y → y.text ≠ p.chosenToken) ∧
            (attachPositions e (p :: rest) dst ctr).1 =
              to2.set i (next.withChildren
                (attachPositions e rest next.children (ctr + p.topLogprobs.length)).1) ∧
            ∀ j, j ≠ i →
              (attachPositions e (p :: rest) dst ctr).1.get? j = to2.get? j) := by
  constructor
  · intro n hn
    exact (pushNodes_mem e p.chosenToken p.finishReason p.topLogprobs ctr n hn).2
  · intro to2 hto2
    subst hto2
    split
    · next hnone =>
      simp only [attachPositions, hnone]
    · next i hsome =>
      rcases findIdx?_zero_spec _ _ i hsome with ⟨next, hget, hpx, hmin⟩
      refine ⟨next, hget, by simpa using hpx, ?_, ?_, ?_⟩
      · intro j hj y hy
        have := hmin j hj y hy
        simpa using this
      · simp only [attachPositions, hsome, hget]
      · intro j hj
        simp only [attachPositions, hsome, hget]
        rw [List.get?_eq_getElem?, List.get?_eq_getElem?,
          List.getElem?_set_ne (fun h => hj h.symm)]

/-- Concrete stand-in for `Math.exp` used in concrete tree computations; a
constant function keeps rational arithmetic out of kernel reduction. -/
def eOne : ℚ → ℚ := fun _ => 1

/-- Witness for C10: a position whose two alternatives both carry the chosen
text; both created nodes get the finish mark, and the attachment point is
the first. -/
theorem c10_descend_by_text_witness :
    (Token.mk 0 "x" (-1) (eOne (-1)) (some .stop) []) ∈
      pushNodes eOne "x" (some .stop) [⟨"x", -1⟩, ⟨"x", -2⟩] 0 ∧
    (Token.mk 0 "x" (-1) (eOne (-1)) (some .stop) []).branchFinished =
      if (Token.mk 0 "x" (-1) (eOne (-1)) (some .stop) []).text = "x"
      then some BranchFinishReason.stop else none :=
  have h := c10_descend_by_text eOne ⟨"x", some .stop, [⟨"x", -1⟩, ⟨"x", -2⟩]⟩ [] [] 0
  ⟨by simp [pushNodes], h.1 _ (by simp [pushNodes])⟩

/-! ## Traversal and frontier selection (src/logit-loom.ts lines 462-487)

`_treeTraversals` lazily yields every root-to-leaf path of a tree in
depth-first left-to-right order; `getContinuablePrefix` scans these per root
and returns the first continuable one.  The generator is translated to the
eager list of yielded paths (finite trees), preserving order. -/

mutual
/-- The generator `_treeTraversals` (lines 477-487): all root-to-leaf paths
of one tree, depth-first, left to right. -/
def treeTraversals : Token → List (List Token)
  | .mk i x lp pr bf [] => [[Token.mk i x lp pr bf []]]
  | .mk i x lp pr bf (c :: cs) =>
    (traversalsList (c :: cs)).map (fun s => Token.mk i x lp pr bf (c :: cs) :: s)

/-- Concatenated traversals of a list of trees, in order. -/
def traversalsList : List Token → List (List Token)
  | [] => []
  | c :: rest => treeTraversals c ++ traversalsList rest
end

/-- The scan inside `getContinuablePrefix` (lines 463-473), over the stream
of traversals: skip empty traversals and those at or beyond `maxDepth`,
return the first whose last node is a childless unfinished leaf. -/
def findCont (maxDepth : Nat) : List (List Token) → Option (List Token)
  | [] => none
  | tr :: rest =>
    match tr.getLast? with
    | none => findCont maxDepth rest
    | some last =>
      if maxDepth ≤ tr.length then findCont maxDepth rest
      else if last.children.isEmpty && last.branchFinished.isNone then some tr
      else findCont maxDepth rest

/-- The frontier selector `getContinuablePrefix` (lines 462-475). -/
def getContinuablePrefix (roots : List Token) (maxDepth : Nat) : Option (List Token) :=
  findCont maxDepth (traversalsList roots)

/-! ### Index paths

The source mutates the node object at the end of the returned prefix; the
pure embedding instead locates that node by its index path (position of each
child along the way), with `contPathChildren` computing the index path of
exactly the traversal `getContinuablePrefix` returns (proved below). -/

mutual
/-- Index path (relative to the subtrees of `t`) of the first continuable
leaf in `t`, where `len` ancestors sit above `t`; `some []` denotes `t`
itself. -/
def contPathTok (D : Nat) (len : Nat) : Token → Option (List Nat)
  | .mk _ _ _ _ bf [] => if len + 1 < D ∧ bf = none then some [] else none
  | .mk _ _ _ _ _ (c :: cs) => contPathChildren D (len + 1) (c :: cs)

/-- Index path (relative to `ts`) of the first continuable leaf under any
tree of `ts`. -/
def contPathChildren (D : Nat) (len : Nat) : List Token → Option (List Nat)
  | [] => none
  | c :: rest =>
    match contPathTok D len c with
    | some p => some (0 :: p)
    | none =>
      match contPathChildren D len rest with
      | some (j :: q) => some ((j + 1) :: q)
      | _ => none
end

/-- Node of a forest at an index path (`[]` is no node). -/
def nodeAt : List Token → List Nat → Option Token
  | _, [] => none
  | ts, i :: rest =>
    match ts.get? i with
    | none => none
    | some t =>
      match rest with
      | [] => some t
      | _ => nodeAt t.children rest

/-- The tokens along an index path, outermost first. -/
def tokensAlong : List Token → List Nat → List Token
  | _, [] => []
  | ts, i :: rest =>
    match ts.get? i with
    | none => []
    | some t => t :: tokensAlong t.children rest

/-- Replace the node at an index path (used to model in-place mutation of
the node returned by the frontier selector). -/
def setAtPath : List Token → List Nat → Token → List Token
  | ts, [], _ => ts
  | ts, i :: rest, t' =>
    match ts.get? i with
    | none => ts
    | some t =>
      match rest with
      | [] => ts.set i t'
      | _ => ts.set i (t.withChildren (setAtPath t.children rest t'))

mutual
theorem treeTraversals_ne_nil : ∀ (t : Token), ∀ tr ∈ treeTraversals t, tr ≠ []
  | .mk i x lp pr bf [] => by
    intro tr htr
    simp only [treeTraversals, List.mem_singleton] at htr
    subst htr; simp
  | .mk i x lp pr bf (c :: cs) => by
    intro tr htr
    simp only [treeTraversals, List.mem_map] at htr
    rcases htr with ⟨s, _, rfl⟩
    simp

theorem traversalsList_ne_nil : ∀ (ts : List Token), ∀ tr ∈ traversalsList ts, tr ≠ []
  | [] => by intro tr htr; simp [traversalsList] at htr
  | c :: rest => by
    intro tr htr
    simp only [traversalsList, List.mem_append] at htr
    rcases htr with h | h
    · exact treeTraversals_ne_nil c tr h
    · exact traversalsList_ne_nil rest tr h
end

/-- Generalization of `findCont` by a length offset, used to relate the scan
on a subtree's traversals to the scan on the enclosing tree's traversals. -/
def findContOff (D off : Nat) : List (List Token) → Option (List Token)
  | [] => none
  | tr :: rest =>
    match tr.getLast? with
    | none => findContOff D off rest
    | some last =>
      if D ≤ off + tr.length then findContOff D off rest
      else if last.children.isEmpty && last.branchFinished.isNone then some tr
      else findContOff D off rest

theorem findContOff_zero (D : Nat) : ∀ trs, findContOff D 0 trs = findCont D trs := by
  intro trs
  induction trs with
  | nil => rfl
  | cons tr rest ih =>
    simp only [findContOff, findCont, Nat.zero_add, ih]

theorem findContOff_append (D off : Nat) : ∀ (A B : List (List Token)),
    findContOff D off (A ++ B) =
      (match findContOff D off A with
       | some x => some x
       | none => findContOff D off B) := by
  intro A B
  induction A with
  | nil => simp [findContOff]
  | cons tr rest ih =>
    cases hl : tr.getLast? with
    | none =>
      simp only [List.cons_append, findContOff, hl]
      exact ih
    | some last =>
      by_cases hd : D ≤ off + tr.length
      · simp only [List.cons_append, findContOff, hl, if_pos hd]
        exact ih
      · by_cases hc : (last.children.isEmpty && last.branchFinished.isNone) = true
        · simp only [List.cons_append, findContOff, hl, if_neg hd, if_pos hc]
        · simp only [List.cons_append, findContOff, hl, if_neg hd, if_neg hc]
          exact ih

theorem findContOff_map_cons (D off : Nat) (t : Token) :
    ∀ (trs : List (List Token)), (∀ tr ∈ trs, tr ≠ []) →
      findContOff D off (trs.map (fun s => t :: s)) =
        (findContOff D (off + 1) trs).map (fun s => t :: s) := by
  intro trs
  induction trs with
  | nil => intro _; rfl
  | cons tr rest ih =>
    intro hne
    have htr : tr ≠ [] := hne tr (List.mem_cons_self tr rest)
    have hrest : ∀ x ∈ rest, x ≠ [] := fun x hx => hne x (List.mem_cons_of_mem tr hx)
    rcases List.exists_cons_of_ne_nil htr with ⟨a, l, rfl⟩
    rcases hl : (a :: l).getLast? with _ | last
    · simp at hl
    · simp only [List.map_cons, findContOff, List.getLast?_cons_cons, hl, List.length_cons]
      split_ifs with h1 h2 h3 h4 h5 <;>
        first
          | exact ih hrest
          | rfl
          | omega

theorem contPathChildren_ne_nil (D len : Nat) :
    ∀ (ts : List Token) (p : List Nat), contPathChildren D len ts = some p → p ≠ [] := by
  intro ts p h
  cases ts with
  | nil => simp [contPathChildren] at h
  | cons c rest =>
    simp only [contPathChildren] at h
    rcases hc : contPathTok D len c with _ | q
    · rw [hc] at h
      rcases hr : contPathChildren D len rest with _ | p'
      · rw [hr] at h
        simp at h
      · rw [hr] at h
        cases p' with
        | nil => simp at h
        | cons j q =>
          simp only [Option.some.injEq] at h
          subst h; simp
    · rw [hc] at h
      simp only [Option.some.injEq] at h
      subst h; simp

theorem tokensAlong_cons_succ (c : Token) (rest : List Token) (j : Nat) (q : List Nat) :
    tokensAlong (c :: rest) ((j + 1) :: q) = tokensAlong rest (j :: q) := by
  simp only [tokensAlong, List.get?_cons_succ]

mutual
theorem contPathTok_trav : ∀ (D len : Nat) (t : Token),
    (contPathTok D len t).map (fun p => t :: tokensAlong t.children p) =
      findContOff D len (treeTraversals t)
  | D, len, .mk i x lp pr bf [] => by
    simp only [contPathTok, treeTraversals, findContOff, List.getLast?_singleton,
      List.length_singleton, Token.children, Token.branchFinished, List.isEmpty_nil,
      Bool.true_and]
    by_cases h1 : len + 1 < D
    · have h2 : ¬ D ≤ len + 1 := by omega
      rw [if_neg h2]
      cases bf with
      | none => simp [h1, tokensAlong]
      | some r => simp [h1]
    · have h2 : D ≤ len + 1 := by omega
      rw [if_pos h2]
      have : ¬ (len + 1 < D ∧ bf = none) := fun hc => h1 hc.1
      simp [this]
  | D, len, .mk i x lp pr bf (c :: cs) => by
    have ih := contPathChildren_trav D (len + 1) (c :: cs)
    simp only [contPathTok, treeTraversals]
    rw [findContOff_map_cons D len _ _ (traversalsList_ne_nil (c :: cs)), ← ih,
      Option.map_map]
    rfl

theorem contPathChildren_trav : ∀ (D len : Nat) (ts : List Token),
    (contPathChildren D len ts).map (tokensAlong ts) = findContOff D len (traversalsList ts)
  | D, len, [] => by
    simp [contPathChildren, traversalsList, findContOff]
  | D, len, c :: rest => by
    have ihc := contPathTok_trav D len c
    have ihr := contPathChildren_trav D len rest
    simp only [contPathChildren, traversalsList]
    rw [findContOff_append]
    rcases hc : contPathTok D len c with _ | q
    · rw [hc] at ihc
      simp only [Option.map_none'] at ihc
      rw [← ihc]
      rcases hr : contPathChildren D len rest with _ | p'
      · rw [hr] at ihr
        simp only [Option.map_none'] at ihr
        simp [← ihr]
      · have hne := contPathChildren_ne_nil D len rest p' hr
        rcases p' with _ | ⟨j, q⟩
        · exact absurd rfl hne
        · rw [hr] at ihr
          simp only [Option.map_some'] at ihr
          simp only [← ihr, Option.map_some']
          rw [tokensAlong_cons_succ]
    · rw [hc] at ihc
      simp only [Option.map_some'] at ihc
      rw [← ihc]
      simp only [Option.map_some']
      have : tokensAlong (c :: rest) (0 :: q) = c :: tokensAlong c.children q := by
        simp [tokensAlong]
      rw [this]
end

/-- The frontier selector and the index-path frontier agree: the tokens along
the index path are exactly the prefix `getContinuablePrefix` returns. -/
theorem contPathChildren_eq_getContinuablePrefix (D : Nat) (roots : List Token) :
    (contPathChildren D 0 roots).map (tokensAlong roots) = getContinuablePrefix roots D := by
  rw [contPathChildren_trav, getContinuablePrefix, findContOff_zero]

/-! ## Claim C9: frontier selection -/

/-- Root-to-leaf paths of a forest, written from the spec's wording: a path
starts at some root, each further node is a child of the previous one, and
it ends at a leaf (no children). -/
inductive IsLeafPath : List Token → List Token → Prop where
  | leaf (t : Token) (ts : List Token) : t ∈ ts → t.children = [] → IsLeafPath ts [t]
  | step (t : Token) (ts : List Token) (rest : List Token) :
      t ∈ ts → rest ≠ [] → IsLeafPath t.children rest → IsLeafPath ts (t :: rest)

/-- The spec's "continuable" test on a root-to-leaf path: the leaf has no
children, is not branch-finished, and the path length is strictly below the
depth bound. -/
def continuableB (D : Nat) (tr : List Token) : Bool :=
  match tr.getLast? with
  | none => false
  | some last => decide (tr.length < D) && last.children.isEmpty && last.branchFinished.isNone

theorem findCont_eq_find? (D : Nat) :
    ∀ trs : List (List Token), findCont D trs = trs.find? (continuableB D) := by
  intro trs
  induction trs with
  | nil => rfl
  | cons tr rest ih =>
    cases hl : tr.getLast? with
    | none =>
      have hc : continuableB D tr = false := by simp [continuableB, hl]
      simp only [findCont, hl, List.find?_cons, hc]
      exact ih
    | some last =>
      by_cases hd : D ≤ tr.length
      · have hc : continuableB D tr = false := by
          simp [continuableB, hl, Nat.not_lt.mpr hd]
        simp only [findCont, hl, if_pos hd, List.find?_cons, hc]
        exact ih
      · by_cases hleaf : (last.children.isEmpty && last.branchFinished.isNone) = true
        · have hc : continuableB D tr = true := by
            simp only [continuableB, hl]
            simp only [Bool.and_eq_true] at hleaf ⊢
            exact ⟨⟨by simpa using Nat.lt_of_not_le hd, hleaf.1⟩, hleaf.2⟩
          simp only [findCont, hl, if_neg hd, if_pos hleaf, List.find?_cons, hc]
        · have hff : (last.children.isEmpty && last.branchFinished.isNone) = false :=
            Bool.eq_false_iff.mpr hleaf
          have hc : continuableB D tr = false := by
            simp [continuableB, hl, Bool.and_assoc, hff]
          simp only [findCont, hl, if_neg hd, if_neg hleaf, List.find?_cons, hc]
          exact ih

theorem mem_traversalsList_of_mem :
    ∀ (ts : List Token) (t : Token), t ∈ ts → ∀ tr ∈ treeTraversals t, tr ∈ traversalsList ts := by
  intro ts
  induction ts with
  | nil => intro t h; simp at h
  | cons c rest ih =>
    intro t ht tr htr
    simp only [traversalsList, List.mem_append]
    rcases List.mem_cons.mp ht with rfl | h
    · exact Or.inl htr
    · exact Or.inr (ih t h tr htr)

theorem IsLeafPath.mono {ts ts' : List Token} (hsub : ∀ x ∈ ts, x ∈ ts') :
    ∀ {tr}, IsLeafPath ts tr → IsLeafPath ts' tr := by
  intro tr h
  cases h with
  | leaf t _ hmem hleaf => exact .leaf t ts' (hsub t hmem) hleaf
  | step t _ rest hmem hne hrest => exact .step t ts' rest (hsub t hmem) hne hrest

theorem mem_traversalsList_of_IsLeafPath :
    ∀ {ts tr}, IsLeafPath ts tr → tr ∈ traversalsList ts := by
  intro ts tr h
  induction h with
  | leaf t ts hmem hleaf =>
    refine mem_traversalsList_of_mem ts t hmem [t] ?_
    cases t with
    | mk i x lp pr bf cs =>
      simp only [Token.children] at hleaf
      subst hleaf
      simp [treeTraversals]
  | step t ts rest hmem hne hrest ih =>
    refine mem_traversalsList_of_mem ts t hmem (t :: rest) ?_
    cases t with
    | mk i x lp pr bf cs =>
      simp only [Token.children] at ih hrest
      cases cs with
      | nil => simp [traversalsList] at ih
      | cons c cs' =>
        simp only [treeTraversals, List.mem_map]
        exact ⟨rest, ih, rfl⟩

mutual
theorem IsLeafPath_of_mem_treeTraversals :
    ∀ (t : Token) (tr : List Token), tr ∈ treeTraversals t →
      ∀ ts, t ∈ ts → IsLeafPath ts tr
  | .mk i x lp pr bf [], tr, htr => by
    intro ts hts
    simp only [treeTraversals, List.mem_singleton] at htr
    subst htr
    exact .leaf _ ts hts rfl
  | .mk i x lp pr bf (c :: cs), tr, htr => by
    intro ts hts
    simp only [treeTraversals, List.mem_map] at htr
    rcases htr with ⟨s, hs, rfl⟩
    have hrec := IsLeafPath_of_mem_traversalsList (c :: cs) s hs
    exact .step _ ts s hts (traversalsList_ne_nil (c :: cs) s hs) hrec

theorem IsLeafPath_of_mem_traversalsList :
    ∀ (ts : List Token) (tr : List Token), tr ∈ traversalsList ts → IsLeafPath ts tr
  | [], tr, htr => by simp [traversalsList] at htr
  | c :: rest, tr, htr => by
    simp only [traversalsList, List.mem_append] at htr
    rcases htr with h | h
    · exact IsLeafPath_of_mem_treeTraversals c tr h (c :: rest) (List.mem_cons_self c rest)
    · exact (IsLeafPath_of_mem_traversalsList rest tr h).mono
        (fun x hx => List.mem_cons_of_mem c hx)
end

/-- C9: the frontier selector returns the first entry, in the depth-first
left-to-right enumeration of root-to-leaf paths, that passes the continuable
test (childless, unfinished leaf, length strictly below the depth bound);
the enumeration contains exactly the root-to-leaf paths of the forest, and
`none` is returned exactly when no root-to-leaf path is continuable. -/
theorem c9_frontier_selection (roots : List Token) (D : Nat) :
    getContinuablePrefix roots D = (traversalsList roots).find? (continuableB D) ∧
    (∀ tr, tr ∈ traversalsList roots ↔ IsLeafPath roots tr) ∧
    ( getContinuablePrefix roots D = none ↔
      ∀ tr, IsLeafPath roots tr → continuableB D tr = false) := by
  have hmem : ∀ tr, tr ∈ traversalsList roots ↔ IsLeafPath roots tr := fun tr =>
    ⟨fun h => IsLeafPath_of_mem_traversalsList roots tr h,
     fun h => mem_traversalsList_of_IsLeafPath h⟩
  have heq : getContinuablePrefix roots D = (traversalsList roots).find? (continuableB D) :=
    findCont_eq_find? D (traversalsList roots)
  refine ⟨heq, hmem, ?_⟩
  rw [heq, List.find?_eq_none]
  constructor
  · intro h tr htr
    exact Bool.eq_false_iff.mpr (h tr ((hmem tr).mpr htr))
  · intro h tr htr
    exact Bool.eq_false_iff.mp (h tr ((hmem tr).mp htr))

/-- Witness for C9 at a concrete one-node forest. -/
theorem c9_frontier_selection_witness :
    getContinuablePrefix [Token.mk 0 "a" (-1) 1 none []] 2 =
      (traversalsList [Token.mk 0 "a" (-1) 1 none []]).find? (continuableB 2) :=
  (c9_frontier_selection [Token.mk 0 "a" (-1) 1 none []] 2).1

theorem nodeAt_cons_succ (c : Token) (rest : List Token) (j : Nat) (q : List Nat) :
    nodeAt (c :: rest) ((j + 1) :: q) = nodeAt rest (j :: q) := by
  simp only [nodeAt, List.get?_cons_succ]

mutual
theorem contPathTok_spec : ∀ (D len : Nat) (t : Token) (q : List Nat),
    contPathTok D len t = some q →
      (q = [] ∧ t.children = [] ∧ t.branchFinished = none ∧ len + 1 < D) ∨
      (∃ leaf, nodeAt t.children q = some leaf ∧ leaf.children = [] ∧
        leaf.branchFinished = none ∧ len + 1 + q.length < D)
  | D, len, .mk i x lp pr bf [], q => by
    intro h
    simp only [contPathTok] at h
    split_ifs at h with hc
    · cases h
      exact Or.inl ⟨rfl, rfl, hc.2, hc.1⟩
  | D, len, .mk i x lp pr bf (c :: cs), q => by
    intro h
    simp only [contPathTok] at h
    rcases contPathChildren_spec D (len + 1) (c :: cs) q h with ⟨leaf, h1, h2, h3, h4⟩
    exact Or.inr ⟨leaf, by simpa [Token.children] using h1, h2, h3, by omega⟩

theorem contPathChildren_spec : ∀ (D len : Nat) (ts : List Token) (p : List Nat),
    contPathChildren D len ts = some p →
      ∃ leaf, nodeAt ts p = some leaf ∧ leaf.children = [] ∧
        leaf.branchFinished = none ∧ len + p.length < D
  | D, len, [], p => by intro h; simp [contPathChildren] at h
  | D, len, c :: rest, p => by
    intro h
    simp only [contPathChildren] at h
    cases hc : contPathTok D len c with
    | some q =>
      rw [hc] at h
      simp only [Option.some.injEq] at h
      subst h
      rcases contPathTok_spec D len c q hc with ⟨rfl, hcs, hbf, hlt⟩ | ⟨leaf, h1, h2, h3, h4⟩
      · exact ⟨c, by simp [nodeAt], hcs, hbf, by simpa using hlt⟩
      · have hq : q ≠ [] := by
          intro hq
          subst hq
          simp [nodeAt] at h1
        refine ⟨leaf, ?_, h2, h3, ?_⟩
        · rcases List.exists_cons_of_ne_nil hq with ⟨j0, q', rfl⟩
          simp only [nodeAt, List.get?_cons_zero]
          exact h1
        · simp only [List.length_cons]
          omega
    | none =>
      rw [hc] at h
      cases hr : contPathChildren D len rest with
      | none => rw [hr] at h; simp at h
      | some p' =>
        rw [hr] at h
        cases p' with
        | nil => simp at h
        | cons j q =>
          simp only [Option.some.injEq] at h
          subst h
          rcases contPathChildren_spec D len rest (j :: q) hr with ⟨leaf, h1, h2, h3, h4⟩
          refine ⟨leaf, ?_, h2, h3, ?_⟩
          · rw [nodeAt_cons_succ]
            exact h1
          · simp only [List.length_cons] at h4 ⊢
            omega

end

/-! ## Tree Builder orchestration (`buildTree`, src/logit-loom.ts lines 211-231)

The loop state carries the forest, the uuid counter and the index of the next
query; one `loomStep` is one iteration of the `while (true)` body: find the
continuable prefix, and if one exists apply `appendTokens` to its last node
with the oracle's next result.  `buildIter n` is the state after the initial
root query plus `n` loop iterations; once no continuable prefix exists the
state is a fixpoint (the source loop `break`s and returns). -/

structure LoomState where
  roots : List Token
  ctr : Nat
  k : Nat
deriving Repr

/-- One iteration of the `buildTree` loop (lines 220-229). -/
def loomStep (e : ℚ → ℚ) (oracle : Nat → QueriedLogprobs) (D : Nat) (s : LoomState) :
    LoomState :=
  match contPathChildren D 0 s.roots with
  | none => s
  | some p =>
    match nodeAt s.roots p with
    | none => s
    | some t =>
      let res := appendTokensNode e (oracle s.k) t s.ctr
      ⟨setAtPath s.roots p res.1, res.2, s.k + 1⟩

/-- State after the initial root query (lines 212-213). -/
def initState (e : ℚ → ℚ) (oracle : Nat → QueriedLogprobs) : LoomState :=
  let res := appendTokensList e (oracle 0) [] 0
  ⟨res.1, res.2, 1⟩

/-- Iterating the loop body from an arbitrary state. -/
def loomIterFrom (e : ℚ → ℚ) (oracle : Nat → QueriedLogprobs) (D : Nat) (s : LoomState) :
    Nat → LoomState
  | 0 => s
  | n + 1 => loomStep e oracle D (loomIterFrom e oracle D s n)

/-- State of `buildTree` after `n` loop iterations. -/
def buildIter (e : ℚ → ℚ) (oracle : Nat → QueriedLogprobs) (D : Nat) (n : Nat) : LoomState :=
  loomIterFrom e oracle D (initState e oracle) n

theorem loomIterFrom_succ_eq (e : ℚ → ℚ) (oracle : Nat → QueriedLogprobs) (D : Nat)
    (s : LoomState) : ∀ n, loomIterFrom e oracle D s (n + 1) =
      loomIterFrom e oracle D (loomStep e oracle D s) n := by
  intro n
  induction n with
  | zero => rfl
  | succ n ih =>
    show loomStep e oracle D (loomIterFrom e oracle D s (n + 1)) = _
    rw [ih]
    rfl

/-- The loop has exited (the frontier selector found nothing). -/
def loomDone (D : Nat) (s : LoomState) : Bool :=
  (contPathChildren D 0 s.roots).isNone

mutual
/-- Decidable check of the spec invariant: a branch-finished node has no
children. -/
def nodeInvB : Token → Bool
  | .mk _ _ _ _ bf cs => (bf.isNone || cs.isEmpty) && forestInvB cs

def forestInvB : List Token → Bool
  | [] => true
  | t :: ts => nodeInvB t && forestInvB ts
end

/-! ## Claim C1: branch-finished nodes and children -/

/-- Adapted result of a backend response carrying two token positions and
`finish_reason = "stop"`: the per-position `finishReason` computed on line
370 is the same `"stop"` for both positions, not only the final one. -/
def oracleC1 : Nat → QueriedLogprobs := fun _ =>
  .logprobs [⟨"a", some .stop, [⟨"a", -1⟩]⟩, ⟨"b", some .stop, [⟨"b", -1⟩]⟩]

/-- C1 (code bug evaluated at the failing input): after the very first query
of `buildTree` returns a two-position result with finish reason `"stop"`,
the chosen node of the first (non-final) position is marked
`branchFinished = stop` and still receives the second position's nodes as
children, so the claimed invariant fails on the produced tree and on every
snapshot containing it. -/
theorem c1_finished_node_with_children :
    ∃ t, nodeAt (buildIter eOne oracleC1 2 0).roots [0] = some t ∧
      t.branchFinished = some .stop ∧ t.children ≠ [] ∧
      forestInvB (buildIter eOne oracleC1 2 0).roots = false := by
  refine ⟨Token.mk 0 "a" (-1) (eOne (-1)) (some .stop)
      [Token.mk 1 "b" (-1) (eOne (-1)) (some .stop) []], ?_, rfl,
      by simp [Token.children], ?_⟩
  · rfl
  · rfl

/-! ## Claim C2: termination of the build loop -/

/-- A first query result growing one root `"a"`, followed forever by adapted
results whose single position has an empty alternative list (as produced,
for example, by a backend returning an empty `top_logprobs` array, whose
selection `sliceToProb` leaves empty). -/
def oracleStall : Nat → QueriedLogprobs := fun k =>
  if k = 0 then .logprobs [⟨"a", none, [⟨"a", -1⟩]⟩]
  else .logprobs [⟨"b", none, []⟩]

/-- The single root grown by `oracleStall`'s first result. -/
def stallRoot : Token := Token.mk 0 "a" (-1) (eOne (-1)) none []

theorem stallIterEq : ∀ n, buildIter eOne oracleStall 2 n = ⟨[stallRoot], 1, n + 1⟩ := by
  intro n
  induction n with
  | zero => rfl
  | succ n ih =>
    show loomStep eOne oracleStall 2 (buildIter eOne oracleStall 2 n) = _
    rw [ih]
    have h1 : contPathChildren 2 0 [stallRoot] = some [0] := rfl
    have h2 : nodeAt [stallRoot] [0] = some stallRoot := rfl
    have h3 : oracleStall (n + 1) = .logprobs [⟨"b", none, []⟩] := by
      simp [oracleStall]
    simp only [loomStep, h1, h2, h3]
    rfl

/-- C2 counterexample: the claim quantifies over result sequences that may
carry empty per-position alternative lists; against `oracleStall` the
frontier selector returns the same prefix forever, `appendTokens` changes
nothing, and the loop never exits. -/
theorem c2_counterexample :
    ¬ ∃ n, loomDone 2 (buildIter eOne oracleStall 2 n) = true := by
  rintro ⟨n, hn⟩
  rw [stallIterEq n] at hn
  simp only [loomDone] at hn
  have : contPathChildren 2 0 [stallRoot] = some [0] := rfl
  rw [this] at hn
  simp at hn

/-! ### Termination measure

The measure charges `(W+1)^b` to every continuable leaf, where `b` is the
leaf's remaining depth budget and `W` bounds the alternative-list widths;
each productive loop iteration removes one continuable leaf and creates
strictly cheaper deeper ones. -/

mutual
/-- Measure of one tree given the budget `b = D - (path length of t)`. -/
def measTok (W : Nat) : Nat → Token → Nat
  | b, .mk _ _ _ _ bf [] => if bf = none ∧ 1 ≤ b then (W + 1) ^ b else 0
  | b, .mk _ _ _ _ _ (c :: cs) => measList W (b - 1) (c :: cs)

/-- Measure of a forest whose members all have budget `b`. -/
def measList (W : Nat) : Nat → List Token → Nat
  | _, [] => 0
  | b, t :: ts => measTok W b t + measList W b ts
end

mutual
theorem measTok_zero : ∀ (W : Nat) (t : Token), measTok W 0 t = 0
  | W, .mk i x lp pr bf [] => by simp [measTok]
  | W, .mk i x lp pr bf (c :: cs) => by
    simp only [measTok, Nat.zero_sub]
    exact measList_zero W (c :: cs)

theorem measList_zero : ∀ (W : Nat) (ts : List Token), measList W 0 ts = 0
  | W, [] => rfl
  | W, t :: ts => by
    simp only [measList, measTok_zero W t, measList_zero W ts]
end

theorem measTok_leaf_le (W b : Nat) (t : Token) (h : t.children = []) :
    measTok W b t ≤ (W + 1) ^ b := by
  cases t with
  | mk i x lp pr bf cs =>
    simp only [Token.children] at h
    subst h
    simp only [measTok]
    split
    · exact le_refl _
    · exact Nat.zero_le _

theorem measList_set (W b : Nat) :
    ∀ (ts : List Token) (i : Nat) (t t' : Token), ts.get? i = some t →
      measList W b (ts.set i t') + measTok W b t = measList W b ts + measTok W b t' := by
  intro ts
  induction ts with
  | nil => intro i t t' h; simp at h
  | cons c rest ih =>
    intro i t t' h
    cases i with
    | zero =>
      simp only [List.get?_cons_zero, Option.some.injEq] at h
      subst h
      simp only [List.set_cons_zero, measList]
      omega
    | succ i =>
      simp only [List.get?_cons_succ] at h
      simp only [List.set_cons_succ, measList]
      have := ih i t t' h
      omega

theorem length_setAtPath : ∀ (p : List Nat) (ts : List Token) (t' : Token),
    (setAtPath ts p t').length = ts.length := by
  intro p
  induction p with
  | nil => intro ts t'; rfl
  | cons i rest ih =>
    intro ts t'
    simp only [setAtPath]
    cases h : ts.get? i with
    | none => rfl
    | some t =>
      cases rest with
      | nil => simp [List.length_set]
      | cons j q => simp [List.length_set]

theorem nodeAt_none (ts : List Token) (i : Nat) (rest : List Nat)
    (h : ts.get? i = none) : nodeAt ts (i :: rest) = none := by
  simp only [nodeAt, h]

theorem nodeAt_single (ts : List Token) (i : Nat) (t : Token)
    (h : ts.get? i = some t) : nodeAt ts [i] = some t := by
  simp only [nodeAt, h]

theorem nodeAt_cons_of_get (ts : List Token) (i : Nat) (rest : List Nat) (t : Token)
    (h : ts.get? i = some t) (hne : rest ≠ []) :
    nodeAt ts (i :: rest) = nodeAt t.children rest := by
  cases rest with
  | nil => exact absurd rfl hne
  | cons j q => simp only [nodeAt, h]

theorem setAtPath_single (ts : List Token) (i : Nat) (t t' : Token)
    (h : ts.get? i = some t) : setAtPath ts [i] t' = ts.set i t' := by
  simp only [setAtPath, h]

theorem setAtPath_cons_of_get (ts : List Token) (i : Nat) (rest : List Nat) (t t' : Token)
    (h : ts.get? i = some t) (hne : rest ≠ []) :
    setAtPath ts (i :: rest) t' = ts.set i (t.withChildren (setAtPath t.children rest t')) := by
  cases rest with
  | nil => exact absurd rfl hne
  | cons j q => simp only [setAtPath, h]

theorem meas_setAtPath (W : Nat) : ∀ (p : List Nat) (ts : List Token) (tOld t' : Token)
    (b : Nat), nodeAt ts p = some tOld → p.length ≤ b + 1 →
    measList W b (setAtPath ts p t') + measTok W (b + 1 - p.length) tOld =
      measList W b ts + measTok W (b + 1 - p.length) t' := by
  intro p
  induction p with
  | nil => intro ts tOld t' b h _; simp [nodeAt] at h
  | cons i rest ih =>
    intro ts tOld t' b h hlen
    cases hget : ts.get? i with
    | none => rw [nodeAt_none ts i rest hget] at h; exact absurd h (by simp)
    | some t =>
      cases rest with
      | nil =>
        rw [nodeAt_single ts i t hget] at h
        have heq : t = tOld := by
          simpa using h
        subst heq
        rw [setAtPath_single ts i t t' hget]
        simp only [List.length_cons, List.length_nil, Nat.add_sub_cancel]
        exact measList_set W b ts i t t' hget
      | cons j q =>
        rw [nodeAt_cons_of_get ts i (j :: q) t hget (by simp)] at h
        have hb : 1 ≤ b := by
          simp only [List.length_cons] at hlen
          omega
        have hchne : t.children ≠ [] := by
          intro hc
          rw [hc] at h
          cases q <;> simp [nodeAt] at h
        have hlen2 : (j :: q).length ≤ (b - 1) + 1 := by
          simp only [List.length_cons] at hlen ⊢
          omega
        have hrec := ih t.children tOld t' (b - 1) h hlen2
        rw [setAtPath_cons_of_get ts i (j :: q) t t' hget (by simp)]
        have hset := measList_set W b ts i t
          (t.withChildren (setAtPath t.children (j :: q) t')) hget
        have hsetne : setAtPath t.children (j :: q) t' ≠ [] := by
          intro hc
          have hl := length_setAtPath (j :: q) t.children t'
          rw [hc] at hl
          exact hchne (List.eq_nil_of_length_eq_zero hl.symm)
        rcases hch : t.children with _ | ⟨c0, cs0⟩
        · exact absurd hch hchne
        · rcases hsp : setAtPath t.children (j :: q) t' with _ | ⟨d0, ds0⟩
          · exact absurd hsp hsetne
          · obtain ⟨ti, tx, tlp, tpr, tbf, tcs⟩ := t
            simp only [Token.children] at hch
            subst hch
            have hm1 : measTok W b (Token.mk ti tx tlp tpr tbf (c0 :: cs0)) =
                measList W (b - 1) (c0 :: cs0) := rfl
            simp only [Token.children] at h hrec hsp hset hsetne
            rw [hsp] at hset hrec ⊢
            have hm2 : measTok W b ((Token.mk ti tx tlp tpr tbf (c0 :: cs0)).withChildren
                (d0 :: ds0)) = measList W (b - 1) (d0 :: ds0) := rfl
            rw [hm1, hm2] at hset
            have harith : b + 1 - (i :: j :: q).length = (b - 1) + 1 - (j :: q).length := by
              simp only [List.length_cons]
              omega
            rw [harith]
            omega

/-- Upper bound on the measure of the subtree chain built by
`attachPositions` from an empty attachment list. -/
def attachBound (W : Nat) : List LogprobPos → Nat → Nat
  | [], _ => 0
  | _ :: _, 0 => 0
  | _ :: rest, b + 1 => W * (W + 1) ^ (b + 1) + attachBound W rest b

theorem attachBound_lt (W : Nat) :
    ∀ (ps : List LogprobPos) (b : Nat), attachBound W ps b < (W + 1) ^ (b + 1) := by
  intro ps
  induction ps with
  | nil =>
    intro b
    simp only [attachBound]
    exact Nat.pos_pow_of_pos _ (Nat.succ_pos W)
  | cons p rest ih =>
    intro b
    cases b with
    | zero =>
      simp only [attachBound]
      exact Nat.pos_pow_of_pos _ (Nat.succ_pos W)
    | succ b =>
      simp only [attachBound]
      have h := ih b
      calc W * (W + 1) ^ (b + 1) + attachBound W rest b
          < W * (W + 1) ^ (b + 1) + (W + 1) ^ (b + 1) := by omega
        _ = (W + 1) ^ (b + 1 + 1) := by ring

theorem measList_pushNodes_le (W b : Nat) (e : ℚ → ℚ) (chosen : String)
    (fr : Option BranchFinishReason) :
    ∀ (as : List TopLogprob) (ctr : Nat),
      measList W b (pushNodes e chosen fr as ctr) ≤ as.length * (W + 1) ^ b := by
  intro as
  induction as with
  | nil => intro ctr; simp [pushNodes, measList]
  | cons a rest ih =>
    intro ctr
    simp only [pushNodes, measList, List.length_cons]
    have h1 : measTok W b (Token.mk ctr a.token a.logprob (e a.logprob)
        (if a.token = chosen then fr else none) []) ≤ (W + 1) ^ b :=
      measTok_leaf_le W b _ rfl
    have h2 := ih (ctr + 1)
    have : (rest.length + 1) * (W + 1) ^ b = rest.length * (W + 1) ^ b + (W + 1) ^ b := by
      ring
    omega

theorem withChildren_nil_of_leaf (t : Token) (h : t.children = []) :
    t.withChildren [] = t := by
  cases t with
  | mk i x lp pr bf cs =>
    simp only [Token.children] at h
    subst h
    rfl

theorem attachPositions_measList_le (W : Nat) (e : ℚ → ℚ) :
    ∀ (ps : List LogprobPos) (ctr b : Nat),
      (∀ p ∈ ps, p.topLogprobs.length ≤ W) →
      measList W b (attachPositions e ps [] ctr).1 ≤ attachBound W ps b := by
  intro ps
  induction ps with
  | nil => intro ctr b _; simp [attachPositions, measList, attachBound]
  | cons p rest ih =>
    intro ctr b hw
    have hwp : p.topLogprobs.length ≤ W := hw p (List.mem_cons_self p rest)
    have hwrest : ∀ x ∈ rest, x.topLogprobs.length ≤ W :=
      fun x hx => hw x (List.mem_cons_of_mem p hx)
    cases b with
    | zero =>
      rw [measList_zero]
      simp [attachBound]
    | succ b =>
      have hpushlen := pushNodes_length e p.chosenToken p.finishReason p.topLogprobs ctr
      have hpushle := measList_pushNodes_le W (b + 1) e p.chosenToken p.finishReason
        p.topLogprobs ctr
      have hnewsle : measList W (b + 1)
          (pushNodes e p.chosenToken p.finishReason p.topLogprobs ctr) ≤
            W * (W + 1) ^ (b + 1) := by
        calc measList W (b + 1) (pushNodes e p.chosenToken p.finishReason p.topLogprobs ctr)
            ≤ p.topLogprobs.length * (W + 1) ^ (b + 1) := hpushle
          _ ≤ W * (W + 1) ^ (b + 1) := Nat.mul_le_mul_right _ hwp
      cases hf : (pushNodes e p.chosenToken p.finishReason p.topLogprobs ctr).findIdx?
          (fun t => t.text == p.chosenToken) with
      | none =>
        simp only [attachPositions, List.nil_append, hf, attachBound]
        omega
      | some i =>
        cases hget : (pushNodes e p.chosenToken p.finishReason p.topLogprobs ctr).get? i with
        | none =>
          simp only [attachPositions, List.nil_append, hf, hget, attachBound]
          omega
        | some next =>
          have hmem : next ∈ pushNodes e p.chosenToken p.finishReason p.topLogprobs ctr :=
            List.get?_mem hget
          have hch : next.children = [] :=
            (pushNodes_mem e p.chosenToken p.finishReason p.topLogprobs ctr next hmem).1
          have hset := measList_set W (b + 1)
            (pushNodes e p.chosenToken p.finishReason p.topLogprobs ctr) i next
            (next.withChildren
              (attachPositions e rest next.children (ctr + p.topLogprobs.length)).1) hget
          have hrec : measList W b
              (attachPositions e rest next.children (ctr + p.topLogprobs.length)).1 ≤
                attachBound W rest b := by
            rw [hch]
            exact ih (ctr + p.topLogprobs.length) b hwrest
          simp only [attachPositions, List.nil_append, hf, hget, attachBound]
          rcases hL : (attachPositions e rest next.children (ctr + p.topLogprobs.length)).1
              with _ | ⟨d0, ds0⟩
          · rw [hL] at hset
            rw [withChildren_nil_of_leaf next hch] at hset ⊢
            omega
          · rw [hL] at hset hrec
            have hm2 : measTok W (b + 1) (next.withChildren (d0 :: ds0)) =
                measList W b (d0 :: ds0) := by
              cases next with
              | mk i2 x2 lp2 pr2 bf2 cs2 => rfl
            rw [hm2] at hset
            have hnext_le : measTok W (b + 1) next ≤ (W + 1) ^ (b + 1) :=
              measTok_leaf_le W (b + 1) next hch
            omega

theorem attachPositions_cons_length (e : ℚ → ℚ) (p : LogprobPos) (rest : List LogprobPos)
    (ctr : Nat) :
    ((attachPositions e (p :: rest) [] ctr).1).length = p.topLogprobs.length := by
  cases hf : (pushNodes e p.chosenToken p.finishReason p.topLogprobs ctr).findIdx?
      (fun t => t.text == p.chosenToken) with
  | none =>
    simp only [attachPositions, List.nil_append, hf]
    exact pushNodes_length e p.chosenToken p.finishReason p.topLogprobs ctr
  | some i =>
    cases hget : (pushNodes e p.chosenToken p.finishReason p.topLogprobs ctr).get? i with
    | none =>
      simp only [attachPositions, List.nil_append, hf, hget]
      exact pushNodes_length e p.chosenToken p.finishReason p.topLogprobs ctr
    | some next =>
      simp only [attachPositions, List.nil_append, hf, hget, List.length_set]
      exact pushNodes_length e p.chosenToken p.finishReason p.topLogprobs ctr

/-- Progress-and-width condition on one adapted result: a logprobs result has
at least one position, its first position offers at least one alternative,
and every position offers at most `W` alternatives.  Adapted results of real
queries satisfy the width bound by construction
(`sliceToProb(...).slice(0, maxWidth)`); the two non-emptiness conditions are
exactly what the counterexample violates. -/
def goodResult (W : Nat) : QueriedLogprobs → Prop
  | .finish _ => True
  | .logprobs [] => False
  | .logprobs (p0 :: rest) =>
    p0.topLogprobs ≠ [] ∧ ∀ pos ∈ p0 :: rest, pos.topLogprobs.length ≤ W

theorem loomStep_meas_lt (e : ℚ → ℚ) (oracle : Nat → QueriedLogprobs) (D W : Nat)
    (s : LoomState) (hgood : goodResult W (oracle s.k))
    (p : List Nat) (hp : contPathChildren D 0 s.roots = some p) :
    measList W (D - 1) (loomStep e oracle D s).roots < measList W (D - 1) s.roots := by
  obtain ⟨leaf, hnode, hch, hbf, hlen⟩ := contPathChildren_spec D 0 s.roots p hp
  have hpne : p ≠ [] := contPathChildren_ne_nil D 0 s.roots p hp
  have hplen1 : 1 ≤ p.length := by
    cases p with
    | nil => exact absurd rfl hpne
    | cons a q => simp
  simp only [Nat.zero_add] at hlen
  simp only [loomStep, hp, hnode]
  have hplen : p.length ≤ (D - 1) + 1 := by omega
  have hmeq := meas_setAtPath W p s.roots leaf
    ((appendTokensNode e (oracle s.k) leaf s.ctr).1) (D - 1) hnode hplen
  have hbl1 : 1 ≤ (D - 1) + 1 - p.length := by omega
  obtain ⟨li, lx, llp, lpr, lbf, lcs⟩ := leaf
  simp only [Token.children] at hch
  simp only [Token.branchFinished] at hbf
  subst hch
  subst hbf
  have hleafmeas : measTok W ((D - 1) + 1 - p.length) (Token.mk li lx llp lpr none []) =
      (W + 1) ^ ((D - 1) + 1 - p.length) := by
    simp only [measTok]
    rw [if_pos ⟨trivial, hbl1⟩]
  have hpowpos : 0 < (W + 1) ^ ((D - 1) + 1 - p.length) :=
    Nat.pos_pow_of_pos _ (Nat.succ_pos W)
  have hnewlt : measTok W ((D - 1) + 1 - p.length)
      ((appendTokensNode e (oracle s.k) (Token.mk li lx llp lpr none []) s.ctr).1) <
        (W + 1) ^ ((D - 1) + 1 - p.length) := by
    cases horacle : oracle s.k with
    | finish r =>
      simp only [appendTokensNode, Token.withFinished, measTok]
      rw [if_neg (by simp)]
      exact hpowpos
    | logprobs ps =>
      rw [horacle] at hgood
      cases ps with
      | nil => exact absurd hgood (by simp [goodResult])
      | cons p0 prest =>
        obtain ⟨htl, hwidths⟩ := hgood
        have hLlen := attachPositions_cons_length e p0 prest s.ctr
        have hLne : ((attachPositions e (p0 :: prest) [] s.ctr).1) ≠ [] := by
          intro hc
          rw [hc] at hLlen
          exact htl (List.eq_nil_of_length_eq_zero hLlen.symm)
        simp only [appendTokensNode, Token.children, Token.withChildren]
        rcases hL : (attachPositions e (p0 :: prest) [] s.ctr).1 with _ | ⟨d0, ds0⟩
        · exact absurd hL hLne
        · have hmeas : measTok W ((D - 1) + 1 - p.length)
              (Token.mk li lx llp lpr none (d0 :: ds0)) =
                measList W ((D - 1) + 1 - p.length - 1) (d0 :: ds0) := rfl
          rw [hmeas, ← hL]
          have hb := attachPositions_measList_le W e (p0 :: prest) s.ctr
            ((D - 1) + 1 - p.length - 1) hwidths
          have hlt := attachBound_lt W (p0 :: prest) ((D - 1) + 1 - p.length - 1)
          have harith : (D - 1) + 1 - p.length - 1 + 1 = (D - 1) + 1 - p.length := by omega
          rw [harith] at hlt
          omega
  omega

theorem loom_terminates_from (e : ℚ → ℚ) (oracle : Nat → QueriedLogprobs) (D W : Nat)
    (hgood : ∀ k, goodResult W (oracle k)) :
    ∀ (M : Nat) (s : LoomState), measList W (D - 1) s.roots ≤ M →
      ∃ n, loomDone D (loomIterFrom e oracle D s n) = true := by
  intro M
  induction M with
  | zero =>
    intro s hs
    cases hc : contPathChildren D 0 s.roots with
    | none => exact ⟨0, by simp [loomDone, loomIterFrom, hc]⟩
    | some p =>
      have := loomStep_meas_lt e oracle D W s (hgood s.k) p hc
      omega
  | succ M ih =>
    intro s hs
    cases hc : contPathChildren D 0 s.roots with
    | none => exact ⟨0, by simp [loomDone, loomIterFrom, hc]⟩
    | some p =>
      have hlt := loomStep_meas_lt e oracle D W s (hgood s.k) p hc
      obtain ⟨n, hn⟩ := ih (loomStep e oracle D s) (by omega)
      exact ⟨n + 1, by rw [loomIterFrom_succ_eq]; exact hn⟩

theorem loomStep_of_done (e : ℚ → ℚ) (oracle : Nat → QueriedLogprobs) (D : Nat)
    (s : LoomState) (h : loomDone D s = true) : loomStep e oracle D s = s := by
  simp only [loomDone, Option.isNone_iff_eq_none] at h
  simp [loomStep, h]

/-- C2 (amended): against every sequence of adapted results in which each
logprobs result has at least one position, a nonempty alternative list at
its first position, and positions of width at most `W`, the query-mutate-
traverse loop of `buildTree` reaches, after finitely many iterations, a
state with no continuable path, and stays there (the loop exits and
returns).  The claim's inclusion of results with empty alternative lists is
refuted separately: such a result leaves the tree unchanged and the loop
re-selects the same prefix forever. -/
theorem c2_termination (e : ℚ → ℚ) (oracle : Nat → QueriedLogprobs) (D W : Nat)
    (hgood : ∀ k, goodResult W (oracle k)) :
    ∃ n, loomDone D (buildIter e oracle D n) = true ∧
      ∀ m, n ≤ m → buildIter e oracle D m = buildIter e oracle D n := by
  obtain ⟨n, hn⟩ := loom_terminates_from e oracle D W hgood
    (measList W (D - 1) (initState e oracle).roots) (initState e oracle) (le_refl _)
  refine ⟨n, hn, ?_⟩
  have hstable : ∀ d, buildIter e oracle D (n + d) = buildIter e oracle D n := by
    intro d
    induction d with
    | zero => rfl
    | succ d ihd =>
      show loomStep e oracle D (buildIter e oracle D (n + d)) = _
      rw [ihd]
      exact loomStep_of_done e oracle D _ hn
  intro m hm
  obtain ⟨d, rfl⟩ := Nat.exists_eq_add_of_le hm
  exact hstable d

/-- Witness for C2: a backend that immediately finishes every branch. -/
theorem c2_termination_witness :
    ∃ n, loomDone 1 (buildIter eOne (fun _ => .finish .stop) 1 n) = true ∧
      ∀ m, n ≤ m → buildIter eOne (fun _ => .finish .stop) 1 m =
        buildIter eOne (fun _ => .finish .stop) 1 n :=
  c2_termination eOne (fun _ => .finish .stop) 1 0 (fun _ => trivial)

/-! ## Claim C7: depth bound -/

mutual
/-- Height of a tree: the longest root-to-leaf path, in tokens. -/
def depthTok : Token → Nat
  | .mk _ _ _ _ _ cs => 1 + depthList cs

/-- Longest path of any tree of a forest. -/
def depthList : List Token → Nat
  | [] => 0
  | t :: ts => max (depthTok t) (depthList ts)
end

/-- Number of token positions in one adapted result (the claim's "token
positions contained in a backend response"). -/
def posCount : QueriedLogprobs → Nat
  | .finish _ => 0
  | .logprobs ps => ps.length

mutual
theorem treeTraversals_length_le : ∀ (t : Token), ∀ tr ∈ treeTraversals t,
    tr.length ≤ depthTok t
  | .mk i x lp pr bf [] => by
    intro tr htr
    simp only [treeTraversals, List.mem_singleton] at htr
    subst htr
    simp [depthTok, depthList]
  | .mk i x lp pr bf (c :: cs) => by
    intro tr htr
    simp only [treeTraversals, List.mem_map] at htr
    rcases htr with ⟨s, hs, rfl⟩
    have := traversalsList_length_le (c :: cs) s hs
    simp only [depthTok, List.length_cons]
    omega

theorem traversalsList_length_le : ∀ (ts : List Token), ∀ tr ∈ traversalsList ts,
    tr.length ≤ depthList ts
  | [] => by intro tr htr; simp [traversalsList] at htr
  | c :: rest => by
    intro tr htr
    simp only [traversalsList, List.mem_append] at htr
    simp only [depthList]
    rcases htr with h | h
    · exact le_max_of_le_left (treeTraversals_length_le c tr h)
    · exact le_max_of_le_right (traversalsList_length_le rest tr h)
end

theorem depthList_pushNodes_le (e : ℚ → ℚ) (chosen : String)
    (fr : Option BranchFinishReason) :
    ∀ (as : List TopLogprob) (ctr : Nat),
      depthList (pushNodes e chosen fr as ctr) ≤ 1 := by
  intro as
  induction as with
  | nil => intro ctr; simp [pushNodes, depthList]
  | cons a rest ih =>
    intro ctr
    simp only [pushNodes, depthList]
    have := ih (ctr + 1)
    have hleaf : depthTok (Token.mk ctr a.token a.logprob (e a.logprob)
        (if a.token = chosen then fr else none) []) = 1 := by
      simp [depthTok, depthList]
    omega

theorem depthTok_le_of_get (ts : List Token) (i : Nat) (t : Token)
    (h : ts.get? i = some t) : depthTok t ≤ depthList ts := by
  induction ts generalizing i with
  | nil => simp at h
  | cons c rest ih =>
    cases i with
    | zero =>
      simp only [List.get?_cons_zero, Option.some.injEq] at h
      subst h
      simp [depthList]
    | succ i =>
      simp only [List.get?_cons_succ] at h
      have := ih i h
      simp only [depthList]
      omega

theorem depthList_set_le (ts : List Token) (i : Nat) (t' : Token) :
    depthList (ts.set i t') ≤ max (depthList ts) (depthTok t') := by
  induction ts generalizing i with
  | nil => simp [depthList]
  | cons c rest ih =>
    cases i with
    | zero =>
      simp only [List.set_cons_zero, depthList]
      omega
    | succ i =>
      simp only [List.set_cons_succ, depthList]
      have := ih i
      omega

theorem depthList_attachPositions_le (e : ℚ → ℚ) :
    ∀ (ps : List LogprobPos) (ctr : Nat),
      depthList (attachPositions e ps [] ctr).1 ≤ ps.length := by
  intro ps
  induction ps with
  | nil => intro ctr; simp [attachPositions, depthList]
  | cons p rest ih =>
    intro ctr
    have hpush := depthList_pushNodes_le e p.chosenToken p.finishReason p.topLogprobs ctr
    cases hf : (pushNodes e p.chosenToken p.finishReason p.topLogprobs ctr).findIdx?
        (fun t => t.text == p.chosenToken) with
    | none =>
      simp only [attachPositions, List.nil_append, hf, List.length_cons]
      omega
    | some i =>
      cases hget : (pushNodes e p.chosenToken p.finishReason p.topLogprobs ctr).get? i with
      | none =>
        simp only [attachPositions, List.nil_append, hf, hget, List.length_cons]
        omega
      | some next =>
        have hch : next.children = [] :=
          (pushNodes_mem e p.chosenToken p.finishReason p.topLogprobs ctr next
            (List.get?_mem hget)).1
        simp only [attachPositions, List.nil_append, hf, hget, List.length_cons]
        have hset := depthList_set_le
          (pushNodes e p.chosenToken p.finishReason p.topLogprobs ctr) i
          (next.withChildren (attachPositions e rest next.children (ctr + p.topLogprobs.length)).1)
        have hwc : depthTok (next.withChildren
            (attachPositions e rest next.children (ctr + p.topLogprobs.length)).1) =
              1 + depthList (attachPositions e rest next.children
                (ctr + p.topLogprobs.length)).1 := by
          cases next with
          | mk i2 x2 lp2 pr2 bf2 cs2 => rfl
        have hrec : depthList (attachPositions e rest next.children
            (ctr + p.topLogprobs.length)).1 ≤ rest.length := by
          rw [hch]
          exact ih (ctr + p.topLogprobs.length)
        omega

theorem depthList_setAtPath_le : ∀ (p : List Nat) (ts : List Token) (t' : Token),
    depthList (setAtPath ts p t') ≤ max (depthList ts) (p.length - 1 + depthTok t') := by
  intro p
  induction p with
  | nil => intro ts t'; simp [setAtPath]
  | cons i rest ih =>
    intro ts t'
    cases hget : ts.get? i with
    | none =>
      simp only [setAtPath, hget]
      exact le_max_left _ _
    | some t =>
      cases rest with
      | nil =>
        rw [setAtPath_single ts i t t' hget]
        have := depthList_set_le ts i t'
        simp only [List.length_cons, List.length_nil]
        omega
      | cons j q =>
        rw [setAtPath_cons_of_get ts i (j :: q) t t' hget (by simp)]
        have hset := depthList_set_le ts i
          (t.withChildren (setAtPath t.children (j :: q) t'))
        have hrec := ih t.children t'
        have htmem := depthTok_le_of_get ts i t hget
        have hwc : depthTok (t.withChildren (setAtPath t.children (j :: q) t')) =
            1 + depthList (setAtPath t.children (j :: q) t') := by
          cases t with
          | mk i2 x2 lp2 pr2 bf2 cs2 => rfl
        have htch : 1 + depthList t.children ≤ depthTok t := by
          cases t with
          | mk i2 x2 lp2 pr2 bf2 cs2 => simp [depthTok, Token.children]
        simp only [List.length_cons] at *
        omega

/-- C7 (amended): provided `depth ≥ 1` and each response carries at most the
requested `max_tokens = depth - (prefix length)` positions, every
root-to-leaf path of every state of the build loop has at most `depth`
tokens.  (For `depth = 0` a branch-finished first response still appends one
synthetic marker node, making a path of one token.) -/
theorem c7_depth_bound (e : ℚ → ℚ) (oracle : Nat → QueriedLogprobs) (D : Nat)
    (hD : 1 ≤ D)
    (h0 : posCount (oracle 0) ≤ D)
    (hstep : ∀ n p, contPathChildren D 0 (buildIter e oracle D n).roots = some p →
        posCount (oracle (buildIter e oracle D n).k) ≤ D - p.length) :
    ∀ n, ∀ tr ∈ traversalsList (buildIter e oracle D n).roots, tr.length ≤ D := by
  have hdepth : ∀ n, depthList (buildIter e oracle D n).roots ≤ D := by
    intro n
    induction n with
    | zero =>
      show depthList (initState e oracle).roots ≤ D
      cases horacle : oracle 0 with
      | finish r =>
        simp only [initState, appendTokensList, horacle, List.nil_append]
        simp [depthList, depthTok]
        omega
      | logprobs ps =>
        simp only [initState, appendTokensList, horacle]
        have := depthList_attachPositions_le e ps 0
        have hpc : posCount (oracle 0) = ps.length := by simp [posCount, horacle]
        omega
    | succ n ih =>
      show depthList (loomStep e oracle D (buildIter e oracle D n)).roots ≤ D
      cases hc : contPathChildren D 0 (buildIter e oracle D n).roots with
      | none => simpa [loomStep, hc] using ih
      | some p =>
        obtain ⟨leaf, hnode, hch, hbf, hlen⟩ :=
          contPathChildren_spec D 0 (buildIter e oracle D n).roots p hc
        have hpne := contPathChildren_ne_nil D 0 (buildIter e oracle D n).roots p hc
        have hplen1 : 1 ≤ p.length := by
          cases p with
          | nil => exact absurd rfl hpne
          | cons a q => simp
        simp only [Nat.zero_add] at hlen
        simp only [loomStep, hc, hnode]
        have hsetle := depthList_setAtPath_le p (buildIter e oracle D n).roots
          ((appendTokensNode e (oracle (buildIter e oracle D n).k) leaf
            (buildIter e oracle D n).ctr).1)
        have hnew : depthTok ((appendTokensNode e (oracle (buildIter e oracle D n).k) leaf
            (buildIter e oracle D n).ctr).1) ≤ 1 + (D - p.length) := by
          cases horacle : oracle (buildIter e oracle D n).k with
          | finish r =>
            obtain ⟨li, lx, llp, lpr, lbf, lcs⟩ := leaf
            simp only [Token.children] at hch
            subst hch
            simp [appendTokensNode, Token.withFinished, depthTok, depthList]
          | logprobs ps =>
            have hpc := hstep n p hc
            rw [horacle] at hpc
            simp only [posCount] at hpc
            obtain ⟨li, lx, llp, lpr, lbf, lcs⟩ := leaf
            simp only [Token.children] at hch
            subst hch
            simp only [appendTokensNode, Token.children, Token.withChildren]
            have hd := depthList_attachPositions_le e ps (buildIter e oracle D n).ctr
            have : depthTok (Token.mk li lx llp lpr lbf
                (attachPositions e ps [] (buildIter e oracle D n).ctr).1) =
                  1 + depthList (attachPositions e ps []
                    (buildIter e oracle D n).ctr).1 := rfl
            omega
        omega
  intro n tr htr
  exact le_trans (traversalsList_length_le (buildIter e oracle D n).roots tr htr) (hdepth n)

/-- Witness for C7: a backend finishing immediately at depth 1; the single
root-to-leaf path of the resulting forest (the marker node) has one token. -/
theorem c7_depth_bound_witness :
    [Token.mk 0 "<|stop|>" 0 1 (some BranchFinishReason.stop) []].length ≤ 1 :=
  c7_depth_bound eOne (fun _ => .finish .stop) 1 (le_refl 1) (by simp [posCount])
    (fun n p _ => by simp [posCount]) 0
    [Token.mk 0 "<|stop|>" 0 1 (some BranchFinishReason.stop) []]
    (by
      have h : traversalsList (buildIter eOne (fun _ => .finish .stop) 1 0).roots =
          [[Token.mk 0 "<|stop|>" 0 1 (some BranchFinishReason.stop) []]] := rfl
      rw [h]
      exact List.mem_singleton.mpr rfl)

/-- C7 counterexample: with `depth = 0` the precondition (every response has
at most `depth - prefix length` positions) holds for a branch-finished first
response, yet the synthetic marker node forms a path of one token, exceeding
the depth. -/
theorem c7_counterexample :
    posCount (QueriedLogprobs.finish .stop) = 0 ∧
    (∀ n p, contPathChildren 0 0 (buildIter eOne (fun _ => .finish .stop) 0 n).roots =
        some p →
      posCount ((fun _ => QueriedLogprobs.finish .stop)
        (buildIter eOne (fun _ => .finish .stop) 0 n).k) ≤ 0 - p.length) ∧
    ∃ tr ∈ traversalsList (buildIter eOne (fun _ => .finish .stop) 0 0).roots,
      ¬ tr.length ≤ 0 := by
  refine ⟨rfl, fun n p _ => by simp [posCount], ?_⟩
  have hroots : traversalsList (buildIter eOne (fun _ => .finish .stop) 0 0).roots =
      [[Token.mk 0 "<|stop|>" 0 1 (some .stop) []]] := rfl
  rw [hroots]
  exact ⟨[Token.mk 0 "<|stop|>" 0 1 (some .stop) []], List.mem_singleton.mpr rfl, by simp⟩

/-! ## Claim C8: max-width cap -/

mutual
/-- Decidable check that a node and all its descendants have at most `W`
children each. -/
def widthOkTok (W : Nat) : Token → Bool
  | .mk _ _ _ _ _ cs => decide (cs.length ≤ W) && widthOkList W cs

/-- Width check over a forest. -/
def widthOkList (W : Nat) : List Token → Bool
  | [] => true
  | t :: ts => widthOkTok W t && widthOkList W ts
end

theorem widthOkList_pushNodes (W : Nat) (e : ℚ → ℚ) (chosen : String)
    (fr : Option BranchFinishReason) :
    ∀ (as : List TopLogprob) (ctr : Nat),
      widthOkList W (pushNodes e chosen fr as ctr) = true := by
  intro as
  induction as with
  | nil => intro ctr; rfl
  | cons a rest ih =>
    intro ctr
    simp only [pushNodes, widthOkList, widthOkTok, Bool.and_eq_true]
    refine ⟨⟨?_, ?_⟩, ih (ctr + 1)⟩ <;> simp

theorem widthOkTok_of_get (W : Nat) :
    ∀ (ts : List Token) (i : Nat) (t : Token), widthOkList W ts = true →
      ts.get? i = some t → widthOkTok W t = true := by
  intro ts
  induction ts with
  | nil => intro i t _ h; simp at h
  | cons c rest ih =>
    intro i t hok h
    simp only [widthOkList, Bool.and_eq_true] at hok
    cases i with
    | zero =>
      simp only [List.get?_cons_zero, Option.some.injEq] at h
      subst h
      exact hok.1
    | succ i =>
      simp only [List.get?_cons_succ] at h
      exact ih i t hok.2 h

theorem widthOkList_set (W : Nat) :
    ∀ (ts : List Token) (i : Nat) (t' : Token), widthOkList W ts = true →
      widthOkTok W t' = true → widthOkList W (ts.set i t') = true := by
  intro ts
  induction ts with
  | nil => intro i t' _ _; rfl
  | cons c rest ih =>
    intro i t' hok ht'
    simp only [widthOkList, Bool.and_eq_true] at hok
    cases i with
    | zero =>
      simp only [List.set_cons_zero, widthOkList, Bool.and_eq_true]
      exact ⟨ht', hok.2⟩
    | succ i =>
      simp only [List.set_cons_succ, widthOkList, Bool.and_eq_true]
      exact ⟨hok.1, ih i t' hok.2 ht'⟩

theorem widthOk_attachPositions (W : Nat) (e : ℚ → ℚ) :
    ∀ (ps : List LogprobPos) (ctr : Nat),
      (∀ p ∈ ps, p.topLogprobs.length ≤ W) →
      widthOkList W (attachPositions e ps [] ctr).1 = true ∧
        (attachPositions e ps [] ctr).1.length ≤ W := by
  intro ps
  induction ps with
  | nil =>
    intro ctr _
    exact ⟨rfl, Nat.zero_le W⟩
  | cons p rest ih =>
    intro ctr hw
    have hwp : p.topLogprobs.length ≤ W := hw p (List.mem_cons_self p rest)
    have hwrest : ∀ x ∈ rest, x.topLogprobs.length ≤ W :=
      fun x hx => hw x (List.mem_cons_of_mem p hx)
    have hpushlen := pushNodes_length e p.chosenToken p.finishReason p.topLogprobs ctr
    have hpushok := widthOkList_pushNodes W e p.chosenToken p.finishReason p.topLogprobs ctr
    cases hf : (pushNodes e p.chosenToken p.finishReason p.topLogprobs ctr).findIdx?
        (fun t => t.text == p.chosenToken) with
    | none =>
      simp only [attachPositions, List.nil_append, hf]
      exact ⟨hpushok, by omega⟩
    | some i =>
      cases hget : (pushNodes e p.chosenToken p.finishReason p.topLogprobs ctr).get? i with
      | none =>
        simp only [attachPositions, List.nil_append, hf, hget]
        exact ⟨hpushok, by omega⟩
      | some next =>
        have hch : next.children = [] :=
          (pushNodes_mem e p.chosenToken p.finishReason p.topLogprobs ctr next
            (List.get?_mem hget)).1
        have hrec := ih (ctr + p.topLogprobs.length) hwrest
        rw [← hch] at hrec
        have hwc : widthOkTok W (next.withChildren
            (attachPositions e rest next.children (ctr + p.topLogprobs.length)).1) = true := by
          cases next with
          | mk i2 x2 lp2 pr2 bf2 cs2 =>
            simp only [Token.withChildren, widthOkTok, Bool.and_eq_true]
            simp only [Token.children] at hrec
            exact ⟨by simpa using hrec.2, hrec.1⟩
        simp only [attachPositions, List.nil_append, hf, hget]
        refine ⟨widthOkList_set W _ i _ hpushok hwc, ?_⟩
        rw [List.length_set]
        omega

theorem widthOk_setAtPath (W : Nat) :
    ∀ (p : List Nat) (ts : List Token) (t' : Token), widthOkList W ts = true →
      widthOkTok W t' = true → widthOkList W (setAtPath ts p t') = true := by
  intro p
  induction p with
  | nil => intro ts t' hok _; exact hok
  | cons i rest ih =>
    intro ts t' hok ht'
    cases hget : ts.get? i with
    | none =>
      simp only [setAtPath, hget]
      exact hok
    | some t =>
      cases rest with
      | nil =>
        rw [setAtPath_single ts i t t' hget]
        exact widthOkList_set W ts i t' hok ht'
      | cons j q =>
        rw [setAtPath_cons_of_get ts i (j :: q) t t' hget (by simp)]
        have htok := widthOkTok_of_get W ts i t hok hget
        have hwc : widthOkTok W (t.withChildren (setAtPath t.children (j :: q) t')) = true := by
          cases t with
          | mk i2 x2 lp2 pr2 bf2 cs2 =>
            simp only [widthOkTok, Bool.and_eq_true] at htok
            simp only [Token.withChildren, Token.children, widthOkTok, Bool.and_eq_true]
            constructor
            · rw [length_setAtPath]
              exact htok.1
            · exact ih cs2 t' htok.2 ht'
        exact widthOkList_set W ts i _ hok hwc

/-- C8 (amended): positions adapted by `query` never offer more than
`maxWidth` alternatives (the probability-mass selection is further capped by
`slice(0, maxWidth)`, the smaller bound winning), and under such results no
node of any loop state ever has more than `maxWidth` children; the root
list, too, except that a branch-finished first response appends one
synthetic marker node, so the root list is only bounded by `max maxWidth 1`
(for `maxWidth = 0` the original root-list claim fails). -/
theorem c8_width_cap (e : ℚ → ℚ) (oracle : Nat → QueriedLogprobs) (D W : Nat)
    (hw : ∀ k ps, oracle k = .logprobs ps → ∀ pos ∈ ps, pos.topLogprobs.length ≤ W) :
    (∀ (cov : ℚ) (choices : List Choice) (ps : List LogprobPos),
        query e cov W choices = .ok (.logprobs ps) →
        ∀ pos ∈ ps, pos.topLogprobs.length ≤ W) ∧
    ∀ n, widthOkList W (buildIter e oracle D n).roots = true ∧
      (buildIter e oracle D n).roots.length ≤ max W 1 := by
  constructor
  · intro cov choices ps hq pos hpos
    cases hh : choices.head? with
    | none => simp [query, hh] at hq
    | some c =>
      cases hl : c.logprobs with
      | none =>
        cases hr : c.finish_reason with
        | none => simp [query, hh, hl, hr] at hq
        | some fr =>
          cases fr with
          | length => simp [query, hh, hl, hr] at hq
          | branch r => simp [query, hh, hl, hr] at hq
      | some lps =>
        simp only [query, hh, hl, Except.ok.injEq, QueriedLogprobs.logprobs.injEq] at hq
        subst hq
        simp only [List.mem_map] at hpos
        rcases hpos with ⟨lp, _, rfl⟩
        simp only [List.length_take]
        exact Nat.min_le_left _ _
  · intro n
    induction n with
    | zero =>
      show widthOkList W (initState e oracle).roots = true ∧
        (initState e oracle).roots.length ≤ max W 1
      cases horacle : oracle 0 with
      | finish r =>
        simp only [initState, appendTokensList, horacle, List.nil_append]
        constructor
        · simp [widthOkList, widthOkTok]
        · simp
      | logprobs ps =>
        simp only [initState, appendTokensList, horacle]
        have := widthOk_attachPositions W e ps 0 (hw 0 ps horacle)
        exact ⟨this.1, le_trans this.2 (le_max_left W 1)⟩
    | succ n ih =>
      have hunf : buildIter e oracle D (n + 1) = loomStep e oracle D (buildIter e oracle D n) :=
        rfl
      rw [hunf]
      cases hc : contPathChildren D 0 (buildIter e oracle D n).roots with
      | none => simpa [loomStep, hc] using ih
      | some p =>
        obtain ⟨leaf, hnode, hch, hbf, _⟩ :=
          contPathChildren_spec D 0 (buildIter e oracle D n).roots p hc
        simp only [loomStep, hc, hnode]
        have ht' : widthOkTok W ((appendTokensNode e (oracle (buildIter e oracle D n).k) leaf
            (buildIter e oracle D n).ctr).1) = true := by
          cases horacle : oracle (buildIter e oracle D n).k with
          | finish r =>
            obtain ⟨li, lx, llp, lpr, lbf, lcs⟩ := leaf
            simp only [Token.children] at hch
            subst hch
            simp [appendTokensNode, Token.withFinished, widthOkTok, widthOkList]
          | logprobs ps =>
            obtain ⟨li, lx, llp, lpr, lbf, lcs⟩ := leaf
            simp only [Token.children] at hch
            subst hch
            have hat := widthOk_attachPositions W e ps (buildIter e oracle D n).ctr
              (hw _ ps horacle)
            simp only [appendTokensNode, Token.children, Token.withChildren, widthOkTok,
              Bool.and_eq_true]
            exact ⟨by simpa using hat.2, hat.1⟩
        constructor
        · exact widthOk_setAtPath W p (buildIter e oracle D n).roots _ ih.1 ht'
        · rw [length_setAtPath]
          exact ih.2

/-- Witness for C8: an immediately-finishing backend with `maxWidth = 0`. -/
theorem c8_width_cap_witness :
    widthOkList 0 (buildIter eOne (fun _ => .finish .stop) 1 0).roots = true ∧
    (buildIter eOne (fun _ => .finish .stop) 1 0).roots.length ≤ max 0 1 :=
  (c8_width_cap eOne (fun _ => .finish .stop) 1 0 (fun _ _ h => nomatch h)).2 0

/-- C8 counterexample: with `maxWidth = 0`, a response whose first choice has
no logprobs and finish reason `"stop"` is a legitimate query result, and the
Tree Mutator applied to the root list appends one synthetic marker node:
the root list then has one entry, more than `maxWidth = 0`. -/
theorem c8_counterexample :
    query eOne 1 0 [⟨some (.branch .stop), none⟩] = .ok (.finish .stop) ∧
    ((appendTokensList eOne (.finish .stop) [] 0).1).length = 1 ∧
    ¬ ((appendTokensList eOne (.finish .stop) [] 0).1).length ≤ 0 := by
  refine ⟨rfl, rfl, ?_⟩
  have h : ((appendTokensList eOne (.finish .stop) [] 0).1).length = 1 := rfl
  omega

/-! ## Tree Expander (`expandTree` and `pathToNodeWithId`,
src/logit-loom.ts lines 234-274) -/

/-- The scan inside `pathToNodeWithId` (lines 264-272): for each traversal
in order, find the first node carrying the id and return the traversal
sliced up to it. -/
def pathToNodeAux (id : Nat) : List (List Token) → Option (List Token)
  | [] => none
  | tr :: trs =>
    match tr.findIdx? (fun t => t.id == id) with
    | some idx => some (tr.take (idx + 1))
    | none => pathToNodeAux id trs

/-- The utility `pathToNodeWithId` (lines 263-274). -/
def pathToNodeWithId (id : Nat) (roots : List Token) : Option (List Token) :=
  pathToNodeAux id (traversalsList roots)

mutual
/-- Decidable check for a node with the given id in a tree. -/
def hasIdTok (id : Nat) : Token → Bool
  | .mk i _ _ _ _ cs => (i == id) || hasIdList id cs

/-- Decidable check for a node with the given id in a forest. -/
def hasIdList (id : Nat) : List Token → Bool
  | [] => false
  | t :: ts => hasIdTok id t || hasIdList id ts
end

mutual
/-- Index path (relative to the subtrees of `t`, `some []` being `t` itself)
of the preorder-first node with the given id. -/
def idPathTok (id : Nat) : Token → Option (List Nat)
  | .mk i _ _ _ _ cs => if i == id then some [] else idPathChildren id cs

/-- Index path (relative to `ts`) of the preorder-first node with the given
id in a forest. -/
def idPathChildren (id : Nat) : List Token → Option (List Nat)
  | [] => none
  | c :: rest =>
    match idPathTok id c with
    | some q => some (0 :: q)
    | none =>
      match idPathChildren id rest with
      | some (j :: q) => some ((j + 1) :: q)
      | _ => none
end

theorem idPathChildren_ne_nil (id : Nat) :
    ∀ (ts : List Token) (p : List Nat), idPathChildren id ts = some p → p ≠ [] := by
  intro ts p h
  cases ts with
  | nil => simp [idPathChildren] at h
  | cons c rest =>
    simp only [idPathChildren] at h
    rcases hc : idPathTok id c with _ | q
    · rw [hc] at h
      rcases hr : idPathChildren id rest with _ | p'
      · rw [hr] at h
        simp at h
      · rw [hr] at h
        cases p' with
        | nil => simp at h
        | cons j q =>
          simp only [Option.some.injEq] at h
          subst h; simp
    · rw [hc] at h
      simp only [Option.some.injEq] at h
      subst h; simp

mutual
theorem idPathTok_none_iff : ∀ (id : Nat) (t : Token),
    idPathTok id t = none ↔ hasIdTok id t = false
  | id, .mk i x lp pr bf cs => by
    simp only [idPathTok, hasIdTok, Bool.or_eq_false_iff]
    by_cases hi : (i == id) = true
    · rw [if_pos hi]
      simp [hi]
    · rw [if_neg hi]
      rw [idPathChildren_none_iff id cs]
      simp [Bool.eq_false_iff.mpr hi]

theorem idPathChildren_none_iff : ∀ (id : Nat) (ts : List Token),
    idPathChildren id ts = none ↔ hasIdList id ts = false
  | id, [] => by simp [idPathChildren, hasIdList]
  | id, c :: rest => by
    simp only [idPathChildren, hasIdList, Bool.or_eq_false_iff]
    rcases hc : idPathTok id c with _ | q
    · have h1 := (idPathTok_none_iff id c).mp hc
      rcases hr : idPathChildren id rest with _ | p'
      · have h2 := (idPathChildren_none_iff id rest).mp hr
        simp [h1, h2]
      · have h2 : ¬ hasIdList id rest = false := by
          intro hfalse
          rw [← idPathChildren_none_iff id rest] at hfalse
          rw [hfalse] at hr
          cases hr
        cases p' with
        | nil => exact absurd ((idPathChildren_ne_nil id rest [] hr) rfl) (fun f => f)
        | cons j q => simp [h1, h2]
    · have h1 : ¬ hasIdTok id c = false := by
        intro hfalse
        rw [← idPathTok_none_iff id c] at hfalse
        rw [hfalse] at hc
        cases hc
      simp [h1]
end

mutual
theorem idPathTok_spec : ∀ (id : Nat) (t : Token) (q : List Nat),
    idPathTok id t = some q →
      (q = [] ∧ t.id = id) ∨ (∃ node, nodeAt t.children q = some node ∧ node.id = id)
  | id, .mk i x lp pr bf cs, q => by
    intro h
    simp only [idPathTok] at h
    by_cases hi : (i == id) = true
    · rw [if_pos hi] at h
      cases h
      exact Or.inl ⟨rfl, by simpa [Token.id] using hi⟩
    · rw [if_neg hi] at h
      rcases idPathChildren_spec id cs q h with ⟨node, h1, h2⟩
      exact Or.inr ⟨node, by simpa [Token.children] using h1, h2⟩

theorem idPathChildren_spec : ∀ (id : Nat) (ts : List Token) (p : List Nat),
    idPathChildren id ts = some p →
      ∃ node, nodeAt ts p = some node ∧ node.id = id
  | id, [], p => by intro h; simp [idPathChildren] at h
  | id, c :: rest, p => by
    intro h
    simp only [idPathChildren] at h
    rcases hc : idPathTok id c with _ | q
    · rw [hc] at h
      rcases hr : idPathChildren id rest with _ | p'
      · rw [hr] at h; simp at h
      · rw [hr] at h
        cases p' with
        | nil => simp at h
        | cons j q =>
          simp only [Option.some.injEq] at h
          subst h
          rcases idPathChildren_spec id rest (j :: q) hr with ⟨node, h1, h2⟩
          exact ⟨node, by rw [nodeAt_cons_succ]; exact h1, h2⟩
    · rw [hc] at h
      simp only [Option.some.injEq] at h
      subst h
      rcases idPathTok_spec id c q hc with ⟨rfl, hid⟩ | ⟨node, h1, h2⟩
      · exact ⟨c, by simp [nodeAt], hid⟩
      · have hq : q ≠ [] := by
          intro hq
          subst hq
          simp [nodeAt] at h1
        rcases List.exists_cons_of_ne_nil hq with ⟨j0, q', rfl⟩
        exact ⟨node, by simpa [nodeAt] using h1, h2⟩
end

mutual
theorem treeTraversals_not_nil : ∀ (t : Token), treeTraversals t ≠ []
  | .mk i x lp pr bf [] => by simp [treeTraversals]
  | .mk i x lp pr bf (c :: cs) => by
    simp only [treeTraversals, ne_eq, List.map_eq_nil_iff]
    exact traversalsList_cons_not_nil c cs

theorem traversalsList_cons_not_nil : ∀ (c : Token) (cs : List Token),
    traversalsList (c :: cs) ≠ []
  | c, cs => by
    simp only [traversalsList, ne_eq, List.append_eq_nil, not_and]
    intro h
    exact absurd h (treeTraversals_not_nil c)
end

theorem pathToNodeAux_append (id : Nat) : ∀ (A B : List (List Token)),
    pathToNodeAux id (A ++ B) =
      (match pathToNodeAux id A with
       | some x => some x
       | none => pathToNodeAux id B) := by
  intro A B
  induction A with
  | nil => simp [pathToNodeAux]
  | cons tr rest ih =>
    cases h : tr.findIdx? (fun t => t.id == id) with
    | some idx => simp only [List.cons_append, pathToNodeAux, h]
    | none =>
      simp only [List.cons_append, pathToNodeAux, h]
      exact ih

theorem pathToNodeAux_map_cons_ne (id : Nat) (t : Token) (hne : (t.id == id) = false) :
    ∀ trs : List (List Token), pathToNodeAux id (trs.map (fun s => t :: s)) =
      (pathToNodeAux id trs).map (fun s => t :: s) := by
  intro trs
  induction trs with
  | nil => rfl
  | cons tr rest ih =>
    have hfind : (t :: tr).findIdx? (fun x => x.id == id) =
        (tr.findIdx? (fun x => x.id == id)).map (· + 1) := by
      rw [List.findIdx?_cons, hne]
      simp only [Bool.false_eq_true, if_neg, List.findIdx?_succ]
      rfl
    cases h : tr.findIdx? (fun x => x.id == id) with
    | some idx =>
      rw [h] at hfind
      simp only [List.map_cons, pathToNodeAux, hfind, Option.map_some', h,
        List.take_succ_cons]
    | none =>
      rw [h] at hfind
      simp only [List.map_cons, pathToNodeAux, hfind, Option.map_none', h]
      exact ih

theorem pathToNodeAux_map_cons_eq (id : Nat) (t : Token) (heq : (t.id == id) = true) :
    ∀ trs : List (List Token), trs ≠ [] →
      pathToNodeAux id (trs.map (fun s => t :: s)) = some [t] := by
  intro trs hne
  cases trs with
  | nil => exact absurd rfl hne
  | cons tr rest =>
    have hfind : (t :: tr).findIdx? (fun x => x.id == id) = some 0 := by
      rw [List.findIdx?_cons, heq]
      simp
    simp only [List.map_cons, pathToNodeAux, hfind]
    rfl

mutual
theorem idPathTok_path : ∀ (id : Nat) (t : Token),
    (idPathTok id t).map (fun q => t :: tokensAlong t.children q) =
      pathToNodeAux id (treeTraversals t)
  | id, .mk i x lp pr bf [] => by
    have hfid : (Token.mk i x lp pr bf []).id = i := rfl
    by_cases hi : (i == id) = true
    · have hfind : ([Token.mk i x lp pr bf []]).findIdx?
          (fun t => t.id == id) = some 0 := by
        rw [List.findIdx?_cons]
        simp [Token.id, hi]
      simp only [idPathTok, if_pos hi, treeTraversals, pathToNodeAux, hfind]
      simp [tokensAlong]
    · have hfind : ([Token.mk i x lp pr bf []]).findIdx?
          (fun t => t.id == id) = none := by
        rw [List.findIdx?_cons]
        simp [Token.id, Bool.eq_false_iff.mpr hi, List.findIdx?_succ]
      simp only [idPathTok, if_neg hi, treeTraversals, pathToNodeAux, hfind,
        idPathChildren, Option.map_none']
  | id, .mk i x lp pr bf (c :: cs) => by
    by_cases hi : (i == id) = true
    · have := pathToNodeAux_map_cons_eq id (Token.mk i x lp pr bf (c :: cs))
        (by simpa [Token.id] using hi) (traversalsList (c :: cs))
        (traversalsList_cons_not_nil c cs)
      simp only [idPathTok, if_pos hi, treeTraversals, this, Option.map_some']
      simp [tokensAlong]
    · have ih := idPathChildren_path id (c :: cs)
      simp only [idPathTok, if_neg hi, treeTraversals]
      rw [pathToNodeAux_map_cons_ne id (Token.mk i x lp pr bf (c :: cs))
        (by simpa [Token.id] using Bool.eq_false_iff.mpr hi), ← ih, Option.map_map]
      rfl

theorem idPathChildren_path : ∀ (id : Nat) (ts : List Token),
    (idPathChildren id ts).map (tokensAlong ts) = pathToNodeAux id (traversalsList ts)
  | id, [] => by simp [idPathChildren, traversalsList, pathToNodeAux]
  | id, c :: rest => by
    have ihc := idPathTok_path id c
    have ihr := idPathChildren_path id rest
    simp only [idPathChildren, traversalsList]
    rw [pathToNodeAux_append]
    rcases hc : idPathTok id c with _ | q
    · rw [hc] at ihc
      simp only [Option.map_none'] at ihc
      rw [← ihc]
      rcases hr : idPathChildren id rest with _ | p'
      · rw [hr] at ihr
        simp only [Option.map_none'] at ihr
        simp [← ihr]
      · have hne := idPathChildren_ne_nil id rest p' hr
        rcases p' with _ | ⟨j, q⟩
        · exact absurd rfl hne
        · rw [hr] at ihr
          simp only [Option.map_some'] at ihr
          simp only [← ihr, Option.map_some']
          rw [tokensAlong_cons_succ]
    · rw [hc] at ihc
      simp only [Option.map_some'] at ihc
      rw [← ihc]
      simp only [Option.map_some']
      have : tokensAlong (c :: rest) (0 :: q) = c :: tokensAlong c.children q := by
        simp [tokensAlong]
      rw [this]
end

/-- The expander's preorder id search agrees with the source's
`pathToNodeWithId`: the tokens along the index path are exactly the token
path the source computes (and both fail together). -/
theorem idPathChildren_eq_pathToNodeWithId (id : Nat) (roots : List Token) :
    (idPathChildren id roots).map (tokensAlong roots) = pathToNodeWithId id roots :=
  idPathChildren_path id roots

/-! ### Frame lemmas: `setAtPath` only touches the path and its subtree -/

/-- Equality of the four immutable scalar fields of a node. -/
def scalarEq (a b : Token) : Prop :=
  a.id = b.id ∧ a.text = b.text ∧ a.logprob = b.logprob ∧ a.prob = b.prob

theorem scalarEq_refl (a : Token) : scalarEq a a := ⟨rfl, rfl, rfl, rfl⟩

theorem scalarEq_withChildren (t : Token) (cs : List Token) :
    scalarEq (t.withChildren cs) t := by
  cases t with
  | mk i x lp pr bf cs0 =>
    exact ⟨rfl, rfl, rfl, rfl⟩

theorem withChildren_branchFinished (t : Token) (cs : List Token) :
    (t.withChildren cs).branchFinished = t.branchFinished := by
  cases t with
  | mk i x lp pr bf cs0 => rfl

theorem get?_set_self (ts : List Token) (i : Nat) (x t : Token)
    (h : ts.get? i = some t) : (ts.set i x).get? i = some x := by
  induction ts generalizing i with
  | nil => simp at h
  | cons c rest ih =>
    cases i with
    | zero => rfl
    | succ i =>
      simp only [List.get?_cons_succ] at h
      simp only [List.set_cons_succ, List.get?_cons_succ]
      exact ih i h

theorem get?_set_ne (ts : List Token) (i j : Nat) (x : Token) (h : i ≠ j) :
    (ts.set i x).get? j = ts.get? j := by
  induction ts generalizing i j with
  | nil => simp
  | cons c rest ih =>
    cases i with
    | zero =>
      cases j with
      | zero => exact absurd rfl h
      | succ j => rfl
    | succ i =>
      cases j with
      | zero => rfl
      | succ j =>
        simp only [List.set_cons_succ, List.get?_cons_succ]
        exact ih i j (fun hc => h (by omega))

theorem nodeAt_congr_get (l l' : List Token) (j : Nat) (q : List Nat)
    (h : l.get? j = l'.get? j) : nodeAt l (j :: q) = nodeAt l' (j :: q) := by
  cases hg : l'.get? j with
  | none => simp only [nodeAt, h, hg]
  | some t => simp only [nodeAt, h, hg]

theorem setAtPath_cons_is_set (ts : List Token) (i : Nat) (rest : List Nat)
    (t t' : Token) (h : ts.get? i = some t) :
    ∃ y, setAtPath ts (i :: rest) t' = ts.set i y ∧
      (rest = [] → y = t') ∧
      (rest ≠ [] → y = t.withChildren (setAtPath t.children rest t')) := by
  cases rest with
  | nil =>
    exact ⟨t', setAtPath_single ts i t t' h, fun _ => rfl, fun hc => absurd rfl hc⟩
  | cons j q =>
    refine ⟨t.withChildren (setAtPath t.children (j :: q) t'),
      setAtPath_cons_of_get ts i (j :: q) t t' h (by simp), ?_, ?_⟩
    · intro hc; cases hc
    · intro _; rfl

theorem nodeAt_setAtPath_disjoint :
    ∀ (p q : List Nat) (ts : List Token) (t' : Token),
      ¬ (p <+: q) → ¬ (q <+: p) →
      nodeAt (setAtPath ts p t') q = nodeAt ts q := by
  intro p
  induction p with
  | nil => intro q ts t' hp _; exact absurd List.nil_prefix hp
  | cons i p' ih =>
    intro q ts t' hp hq
    cases q with
    | nil => exact absurd List.nil_prefix hq
    | cons j q' =>
      cases hget : ts.get? i with
      | none => simp only [setAtPath, hget]
      | some t =>
        by_cases hij : i = j
        · subst hij
          cases p' with
          | nil => exact absurd (List.cons_prefix_cons.mpr ⟨rfl, List.nil_prefix⟩) hp
          | cons a b =>
            cases q' with
            | nil => exact absurd (List.cons_prefix_cons.mpr ⟨rfl, List.nil_prefix⟩) hq
            | cons a2 b2 =>
              obtain ⟨y, hy, _, hyval⟩ := setAtPath_cons_is_set ts i (a :: b) t t' hget
              rw [hy]
              have hgety : (ts.set i y).get? i = some y := get?_set_self ts i y t hget
              rw [nodeAt_cons_of_get (ts.set i y) i (a2 :: b2) y hgety (by simp),
                nodeAt_cons_of_get ts i (a2 :: b2) t hget (by simp)]
              rw [hyval (by simp)]
              have hchy : (t.withChildren (setAtPath t.children (a :: b) t')).children =
                  setAtPath t.children (a :: b) t' := by
                cases t with
                | mk i2 x2 lp2 pr2 bf2 cs2 => rfl
              rw [hchy]
              refine ih (a2 :: b2) t.children t' ?_ ?_
              · intro hc; exact hp (List.cons_prefix_cons.mpr ⟨rfl, hc⟩)
              · intro hc; exact hq (List.cons_prefix_cons.mpr ⟨rfl, hc⟩)
        · obtain ⟨y, hy, _, _⟩ := setAtPath_cons_is_set ts i p' t t' hget
          rw [hy]
          exact nodeAt_congr_get _ ts j q' (get?_set_ne ts i j y hij)

theorem nodeAt_setAtPath_anc :
    ∀ (q : List Nat) (r p : List Nat) (ts : List Token) (t' : Token),
      p = q ++ r → r ≠ [] →
      (nodeAt ts q = none ∧ nodeAt (setAtPath ts p t') q = none) ∨
      (∃ t t2, nodeAt ts q = some t ∧ nodeAt (setAtPath ts p t') q = some t2 ∧
        scalarEq t2 t ∧ t2.branchFinished = t.branchFinished) := by
  intro q
  induction q with
  | nil => intro r p ts t' hp hr; exact Or.inl ⟨rfl, rfl⟩
  | cons i q' ih =>
    intro r p ts t' hp hr
    subst hp
    cases hget : ts.get? i with
    | none =>
      have hset : setAtPath ts ((i :: q') ++ r) t' = ts := by
        simp only [List.cons_append, setAtPath, hget]
      rw [hset]
      cases hn : nodeAt ts (i :: q') with
      | none => exact Or.inl ⟨rfl, rfl⟩
      | some t => exact Or.inr ⟨t, t, rfl, rfl, scalarEq_refl t, rfl⟩
    | some t =>
      have hne : q' ++ r ≠ [] := by
        cases q' <;> simp_all
      obtain ⟨y, hy, _, hyval⟩ := setAtPath_cons_is_set ts i (q' ++ r) t t' hget
      have hyv := hyval hne
      rw [List.cons_append, hy]
      have hgety : (ts.set i y).get? i = some y := get?_set_self ts i y t hget
      cases hq' : q' with
      | nil =>
        refine Or.inr ⟨t, y, nodeAt_single ts i t hget, nodeAt_single _ i y hgety, ?_, ?_⟩
        · rw [hyv]
          exact scalarEq_withChildren t _
        · rw [hyv]
          exact withChildren_branchFinished t _
      | cons a b =>
        rw [← hq']
        have hq'ne : q' ≠ [] := by rw [hq']; simp
        rw [nodeAt_cons_of_get ts i q' t hget hq'ne,
          nodeAt_cons_of_get (ts.set i y) i q' y hgety hq'ne]
        rw [hyv]
        have hchy : (t.withChildren (setAtPath t.children (q' ++ r) t')).children =
            setAtPath t.children (q' ++ r) t' := by
          cases t with
          | mk i2 x2 lp2 pr2 bf2 cs2 => rfl
        rw [hchy]
        exact ih r (q' ++ r) t.children t' rfl hr

/-! ### The expander (`expandTree`, lines 234-261)

The loop mutates only the located node's subtree; the embedding carries the
singleton forest `[node]` the source passes to `getContinuablePrefix`, and a
log of the prefill strings handed to each `query` call (the observable part
of the requests, which claim C6 is about).  `structuredClone` is the
identity on pure values. -/

/-- Concatenation of the token texts, `tokens.map((t) => t.text).join("")`. -/
def joinTexts (ts : List Token) : String :=
  String.join (ts.map Token.text)

/-- JavaScript `+` on a possibly-undefined left operand: line 255 computes
`opts.prefill + extraPrefill` where `opts.prefill : string | undefined`;
when it is `undefined`, JavaScript coerces it to the string `"undefined"`. -/
def jsPlus : Option String → String → String
  | none, b => "undefined" ++ b
  | some a, b => a ++ b

/-- Error thrown on line 239. -/
inductive ExpandError where
  | nodeNotFound
deriving DecidableEq, Repr

structure ExpandState where
  sub : List Token
  ctr : Nat
  k : Nat
  log : List String
deriving Repr

/-- One iteration of the `expandTree` loop (lines 249-259): select the
continuable prefix within the node's own subtree, log the query's prefill
(`base` is the string passed as `opts.prefill` on line 255, to which `query`
appends the prefix tokens' text), and apply `appendTokens`. -/
def expandStep (e : ℚ → ℚ) (oracle : Nat → QueriedLogprobs) (D : Nat) (base : String)
    (s : ExpandState) : ExpandState :=
  match contPathChildren D 0 s.sub with
  | none => s
  | some p =>
    match nodeAt s.sub p with
    | none => s
    | some t =>
      let res := appendTokensNode e (oracle s.k) t s.ctr
      ⟨setAtPath s.sub p res.1, res.2, s.k + 1,
        s.log ++ [base ++ joinTexts (tokensAlong s.sub p)]⟩

/-- Iterated expander loop. -/
def expandIterFrom (e : ℚ → ℚ) (oracle : Nat → QueriedLogprobs) (D : Nat) (base : String)
    (s : ExpandState) : Nat → ExpandState
  | 0 => s
  | n + 1 => expandStep e oracle D base (expandIterFrom e oracle D base s n)

/-- The expander `expandTree` (lines 234-261): deep-copy (identity here),
bump the depth by one to include the node itself, locate the node by id
(`pathToNodeWithId`, here through the index path proved equal to it), clear
its children, set the prefill base to `opts.prefill + extraPrefill`
(JavaScript `+`, line 255), and loop until the subtree has no continuable
path (or `fuel` runs out, covering interrupted runs).  The final forest is
the input with the regrown node written back at its path. -/
def expandTree (e : ℚ → ℚ) (oracle : Nat → QueriedLogprobs) (prefill : Option String)
    (D fuel : Nat) (roots : List Token) (id ctr0 : Nat) :
    Except ExpandError (List Token × List String) :=
  match idPathChildren id roots with
  | none => .error .nodeNotFound
  | some p =>
    match nodeAt roots p with
    | none => .error .nodeNotFound
    | some node =>
      let node0 := node.withChildren []
      let extraPrefill := joinTexts (tokensAlong roots p).dropLast
      let base := jsPlus prefill extraPrefill
      let fin := expandIterFrom e oracle (D + 1) base ⟨[node0], ctr0, 0, []⟩ fuel
      match fin.sub.head? with
      | some node1 => .ok (setAtPath roots p node1, fin.log)
      | none => .ok (roots, fin.log)

theorem appendTokensNode_scalar (e : ℚ → ℚ) (q : QueriedLogprobs) (t : Token) (ctr : Nat) :
    scalarEq (appendTokensNode e q t ctr).1 t := by
  cases q with
  | finish r =>
    cases t with
    | mk i x lp pr bf cs => exact ⟨rfl, rfl, rfl, rfl⟩
  | logprobs ps =>
    cases t with
    | mk i x lp pr bf cs => exact ⟨rfl, rfl, rfl, rfl⟩

theorem scalarEq_trans {a b c : Token} (h1 : scalarEq a b) (h2 : scalarEq b c) :
    scalarEq a c :=
  ⟨h1.1.trans h2.1, h1.2.1.trans h2.2.1, h1.2.2.1.trans h2.2.2.1, h1.2.2.2.trans h2.2.2.2⟩

theorem expandStep_single (e : ℚ → ℚ) (oracle : Nat → QueriedLogprobs) (D : Nat)
    (base : String) (s : ExpandState) (x : Token) (hs : s.sub = [x]) :
    ∃ y, (expandStep e oracle D base s).sub = [y] ∧ scalarEq y x := by
  cases hc : contPathChildren D 0 [x] with
  | none =>
    refine ⟨x, ?_, scalarEq_refl x⟩
    simp only [expandStep, hs, hc]
  | some p =>
    cases hn : nodeAt [x] p with
    | none =>
      refine ⟨x, ?_, scalarEq_refl x⟩
      simp only [expandStep, hs, hc, hn]
    | some t =>
      cases p with
      | nil => simp [nodeAt] at hn
      | cons i rest =>
        cases i with
        | succ i => simp [nodeAt] at hn
        | zero =>
          cases rest with
          | nil =>
            have hx : x = t := by simpa [nodeAt] using hn
            subst hx
            refine ⟨(appendTokensNode e (oracle s.k) x s.ctr).1, ?_,
              appendTokensNode_scalar e (oracle s.k) x s.ctr⟩
            simp only [expandStep, hs, hc, hn]
            rw [setAtPath_single [x] 0 x _ rfl]
            rfl
          | cons j q =>
            have hget : [x].get? 0 = some x := rfl
            refine ⟨x.withChildren (setAtPath x.children (j :: q)
              (appendTokensNode e (oracle s.k) t s.ctr).1), ?_,
              scalarEq_withChildren x _⟩
            simp only [expandStep, hs, hc, hn]
            rw [setAtPath_cons_of_get [x] 0 (j :: q) x
              (appendTokensNode e (oracle s.k) t s.ctr).1 hget (by simp)]
            rfl

theorem expandIter_single (e : ℚ → ℚ) (oracle : Nat → QueriedLogprobs) (D : Nat)
    (base : String) : ∀ (fuel : Nat) (s : ExpandState) (x : Token), s.sub = [x] →
    ∃ y, (expandIterFrom e oracle D base s fuel).sub = [y] ∧ scalarEq y x := by
  intro fuel
  induction fuel with
  | zero => intro s x hs; exact ⟨x, hs, scalarEq_refl x⟩
  | succ n ih =>
    intro s x hs
    obtain ⟨y, hy, hsc⟩ := ih s x hs
    obtain ⟨z, hz, hsc2⟩ := expandStep_single e oracle D base
      (expandIterFrom e oracle D base s n) y hy
    exact ⟨z, hz, scalarEq_trans hsc2 hsc⟩

/-! ## Claim C5: expandTree locality -/

/-- C5 (amended): `expandTree` fails with the node-not-found error exactly
when no node carries the id, and it does so for every oracle (no query is
consulted).  On success the result is the input forest with one subtree
rewritten at the located node's path: every node neither on the path nor
below it is entirely unchanged; the located node and its ancestors keep
their id, text, logprob and prob (ancestors also their branchFinished), but
an ancestor's (deep) children do change through the rewritten subtree — the
original claim's "unchanged (… children)" fails for ancestors; and the
target's previous children are discarded up front (zero loop iterations
leave it childless). -/
theorem c5_expand_locality (e : ℚ → ℚ) (oracle : Nat → QueriedLogprobs)
    (prefill : Option String) (D fuel : Nat) (roots : List Token) (id ctr0 : Nat) :
    (expandTree e oracle prefill D fuel roots id ctr0 = .error .nodeNotFound ↔
        hasIdList id roots = false) ∧
    (hasIdList id roots = false → ∀ oracle2 : Nat → QueriedLogprobs,
        expandTree e oracle2 prefill D fuel roots id ctr0 = .error .nodeNotFound) ∧
    (∀ roots' lg, expandTree e oracle prefill D fuel roots id ctr0 = .ok (roots', lg) →
      ∃ p node node1,
        idPathChildren id roots = some p ∧
        nodeAt roots p = some node ∧ node.id = id ∧
        roots' = setAtPath roots p node1 ∧
        scalarEq node1 node ∧
        (fuel = 0 → node1 = node.withChildren []) ∧
        (∀ q, ¬ (p <+: q) → ¬ (q <+: p) → nodeAt roots' q = nodeAt roots q) ∧
        (∀ q r, p = q ++ r → r ≠ [] →
          (nodeAt roots q = none ∧ nodeAt roots' q = none) ∨
          ∃ t t2, nodeAt roots q = some t ∧ nodeAt roots' q = some t2 ∧
            scalarEq t2 t ∧ t2.branchFinished = t.branchFinished)) := by
  cases hip : idPathChildren id roots with
  | none =>
    have hnone := (idPathChildren_none_iff id roots).mp hip
    refine ⟨⟨fun _ => hnone, fun _ => by simp [expandTree, hip]⟩,
      fun _ oracle2 => by simp [expandTree, hip], ?_⟩
    intro roots' lg hok
    simp [expandTree, hip] at hok
  | some p =>
    obtain ⟨node, hnode, hid⟩ := idPathChildren_spec id roots p hip
    obtain ⟨y, hy, hysc⟩ := expandIter_single e oracle (D + 1)
      (jsPlus prefill (joinTexts (tokensAlong roots p).dropLast)) fuel
      ⟨[node.withChildren []], ctr0, 0, []⟩ (node.withChildren []) rfl
    have hunf : expandTree e oracle prefill D fuel roots id ctr0 =
        .ok (setAtPath roots p y,
          (expandIterFrom e oracle (D + 1)
            (jsPlus prefill (joinTexts (tokensAlong roots p).dropLast))
            ⟨[node.withChildren []], ctr0, 0, []⟩ fuel).log) := by
      simp only [expandTree, hip, hnode]
      rw [hy]
      rfl
    have htrue : ¬ hasIdList id roots = false := by
      intro h
      have := (idPathChildren_none_iff id roots).mpr h
      rw [hip] at this
      cases this
    refine ⟨⟨fun h => ?_, fun h => absurd h htrue⟩,
      fun h => absurd h htrue, ?_⟩
    · rw [hunf] at h
      cases h
    · intro roots' lg hok
      rw [hunf] at hok
      have hpair : setAtPath roots p y = roots' ∧
          (expandIterFrom e oracle (D + 1)
            (jsPlus prefill (joinTexts (tokensAlong roots p).dropLast))
            ⟨[node.withChildren []], ctr0, 0, []⟩ fuel).log = lg := by
        cases hok
        exact ⟨rfl, rfl⟩
      obtain ⟨hroots', _⟩ := hpair
      subst hroots'
      refine ⟨p, node, y, rfl, hnode, hid, rfl,
        scalarEq_trans hysc (scalarEq_withChildren node []), ?_, ?_, ?_⟩
      · intro hf0
        subst hf0
        have h0 : [node.withChildren []] = [y] := hy
        simpa using h0.symm
      · intro q hpq hqp
        exact nodeAt_setAtPath_disjoint p q roots y hpq hqp
      · intro q r hqr hr
        exact nodeAt_setAtPath_anc q r p roots y hqr hr

/-- Two-node forest used by the C5 and C6 evaluations: root `"A"` with one
child `"B"`. -/
def rootsC5 : List Token :=
  [Token.mk 10 "A" (-1) 1 none [Token.mk 11 "B" (-1) 1 none []]]

/-- Witness for C5: no node of `rootsC5` carries id `999`, and `expandTree`
fails with the node-not-found error (for an arbitrary concrete oracle,
before any query). -/
theorem c5_expand_locality_witness :
    expandTree eOne (fun _ => .finish .stop) (some "") 3 5 rootsC5 999 100 =
      .error .nodeNotFound :=
  (c5_expand_locality eOne (fun _ => .finish .stop) (some "") 3 5 rootsC5 999 100).2.1
    (by rfl) (fun _ => .finish .stop)

/-- C5 counterexample: expanding the leaf `"B"` (id 11), the root `"A"`
(id 10) is outside `"B"`'s subtree, yet its `children` list changes (its
child is now branch-finished), refuting "every node outside the target
node's subtree is unchanged (same …, children)" for ancestors. -/
theorem c5_counterexample :
    ∃ roots' lg, expandTree eOne (fun _ => .finish .stop) (some "") 3 5 rootsC5 11 100 =
        .ok (roots', lg) ∧
      (nodeAt roots' [0]).map (fun t => t.children.map Token.branchFinished) ≠
        (nodeAt rootsC5 [0]).map (fun t => t.children.map Token.branchFinished) := by
  refine ⟨_, _, rfl, ?_⟩
  intro h
  simp only [Option.map] at h
  cases h

/-! ## Claim C6: the prefill base of expandTree queries -/

/-- C6 (code bug evaluated at the failing input): when the caller supplies no
prefill, line 255 computes `opts.prefill + extraPrefill` with
`opts.prefill = undefined`, so every query of `expandTree` gets the string
`"undefined"` prepended to the ancestor text instead of the empty string;
with a prefill supplied, the base is the claimed `prefill ++ ancestors`. -/
theorem c6_prefill_undefined :
    jsPlus none "A" = "undefined" ++ "A" ∧
    (∀ s extra : String, jsPlus (some s) extra = s ++ extra) ∧
    (∃ roots', expandTree eOne (fun _ => .finish .stop) none 3 5 rootsC5 11 100 =
        .ok (roots', ["undefinedAB"])) ∧
    "undefinedAB" ≠ "" ++ "A" ++ "B" := by
  refine ⟨rfl, fun s extra => rfl, ⟨_, rfl⟩, by decide⟩

end LogitLoom
